import Mathlib

/-!
Verification development for the AStock time-series analytics engine
(`src/indicators/calculator.py` and `src/analysis/analyzer.py`).

The pandas float values are embedded as `FVal`: a finite rational, one of the
two infinities, or NaN (pandas' "not yet available" marker).  Exact rationals
stand in for IEEE doubles; the arithmetic on the non-finite values follows
IEEE-754 in every case the source exercises.  A DataFrame is a list of named
columns of `FVal` cells.
-/

namespace AStock

/-- A pandas cell: finite number, +inf, -inf, or NaN. -/
inductive FVal where
  | fin (q : ℚ)
  | pinf
  | ninf
  | nan
deriving DecidableEq, Repr

namespace FVal

/-- IEEE negation. -/
def fneg : FVal → FVal
  | fin q => fin (-q)
  | pinf => ninf
  | ninf => pinf
  | nan => nan

/-- IEEE addition (NaN propagates; inf + -inf = NaN). -/
def fadd : FVal → FVal → FVal
  | nan, _ => nan
  | _, nan => nan
  | pinf, ninf => nan
  | ninf, pinf => nan
  | pinf, _ => pinf
  | _, pinf => pinf
  | ninf, _ => ninf
  | _, ninf => ninf
  | fin a, fin b => fin (a + b)

/-- IEEE subtraction. -/
def fsub (a b : FVal) : FVal := fadd a (fneg b)

/-- IEEE multiplication (inf * 0 = NaN). -/
def fmul : FVal → FVal → FVal
  | nan, _ => nan
  | _, nan => nan
  | fin a, fin b => fin (a * b)
  | pinf, pinf => pinf
  | pinf, ninf => ninf
  | ninf, pinf => ninf
  | ninf, ninf => pinf
  | pinf, fin b => if 0 < b then pinf else if b < 0 then ninf else nan
  | ninf, fin b => if 0 < b then ninf else if b < 0 then pinf else nan
  | fin a, pinf => if 0 < a then pinf else if a < 0 then ninf else nan
  | fin a, ninf => if 0 < a then ninf else if a < 0 then pinf else nan

/-- IEEE division.  ℚ has no signed zero, so a zero divisor acts as +0:
`x / 0 = +inf` for `x > 0`, `-inf` for `x < 0`, NaN for `0 / 0` — exactly
numpy's behaviour on the values the source divides. -/
def fdiv : FVal → FVal → FVal
  | nan, _ => nan
  | _, nan => nan
  | fin a, fin b =>
      if b = 0 then (if a = 0 then nan else if 0 < a then pinf else ninf)
      else fin (a / b)
  | fin _, pinf => fin 0
  | fin _, ninf => fin 0
  | pinf, fin b => if 0 ≤ b then pinf else ninf
  | ninf, fin b => if 0 ≤ b then ninf else pinf
  | pinf, _ => nan
  | ninf, _ => nan

/-- IEEE strict greater-than: any comparison with NaN is false. -/
def fgt : FVal → FVal → Bool
  | nan, _ => false
  | _, nan => false
  | fin a, fin b => decide (b < a)
  | pinf, pinf => false
  | pinf, _ => true
  | _, pinf => false
  | ninf, _ => false
  | _, ninf => true

/-- IEEE strict less-than. -/
def flt (a b : FVal) : Bool := fgt b a

/-- IEEE less-or-equal: false when either side is NaN. -/
def fle : FVal → FVal → Bool
  | nan, _ => false
  | _, nan => false
  | fin a, fin b => decide (a ≤ b)
  | _, pinf => true
  | pinf, _ => false
  | ninf, _ => true
  | _, ninf => false

/-- IEEE greater-or-equal. -/
def fge (a b : FVal) : Bool := fle b a

/-- IEEE minimum with NaN propagation (matches a full-window rolling min:
any NaN in the window makes the result NaN). -/
def fmin : FVal → FVal → FVal
  | nan, _ => nan
  | _, nan => nan
  | fin a, fin b => fin (min a b)
  | ninf, _ => ninf
  | _, ninf => ninf
  | pinf, b => b
  | a, pinf => a

/-- IEEE maximum with NaN propagation. -/
def fmax : FVal → FVal → FVal
  | nan, _ => nan
  | _, nan => nan
  | fin a, fin b => fin (max a b)
  | pinf, _ => pinf
  | _, pinf => pinf
  | ninf, b => b
  | a, ninf => a

/-- Is the value NaN?  `pd.notna` is the negation of this. -/
def isNan : FVal → Bool
  | nan => true
  | _ => false

end FVal

open FVal

/-- Sum of a list of cells (NaN or an inf propagates as in IEEE). -/
def sumF (l : List FVal) : FVal := l.foldl fadd (.fin 0)

/-- Mean of a window, as pandas computes it over a full window. -/
def meanF (l : List FVal) : FVal := fdiv (sumF l) (.fin (l.length : ℚ))

/-- `rollingApply agg xs p`: pandas `rolling(window=p)` with the default
`min_periods = p` — index `i` holds `agg` of the trailing-`p` window when
`i ≥ p-1`, NaN before that. -/
def rollingApply (agg : List FVal → FVal) (xs : List FVal) (p : ℕ) : List FVal :=
  (List.range xs.length).map fun i =>
    if p ≤ i + 1 then agg ((xs.drop (i + 1 - p)).take p) else .nan

/-- pandas `rolling(window=p).mean()`. -/
def rollingMeanF (xs : List FVal) (p : ℕ) : List FVal := rollingApply meanF xs p

/-- pandas `rolling(window=p).min()`. -/
def rollingMinF (xs : List FVal) (p : ℕ) : List FVal :=
  rollingApply (fun w => match w with | [] => .nan | h :: t => t.foldl fmin h) xs p

/-- pandas `rolling(window=p).max()`. -/
def rollingMaxF (xs : List FVal) (p : ℕ) : List FVal :=
  rollingApply (fun w => match w with | [] => .nan | h :: t => t.foldl fmax h) xs p

/-- Arithmetic mean of a list of rationals. -/
def listMean (l : List ℚ) : ℚ := l.sum / (l.length : ℚ)

/-- Sample variance (pandas' default `ddof = 1`). -/
def sampleVarL (l : List ℚ) : ℚ :=
  (l.map (fun x => (x - listMean l) ^ 2)).sum / ((l.length : ℚ) - 1)

/-- Are all cells finite? -/
def allFin (l : List FVal) : Bool := l.all fun v => match v with | .fin _ => true | _ => false

/-- The finite values of a list of cells. -/
def finVals (l : List FVal) : List ℚ := l.filterMap fun v => match v with | .fin q => some q | _ => none

/-- Window aggregate for pandas `rolling(window=p).std()` (sample std,
`ddof = 1`): NaN for a window of length ≤ 1, else the square root of the
sample variance.  The square root is the parameter `sqrtQ`, since the exact
real square root is not a rational; every theorem below holds for all
`sqrtQ`. -/
def stdAgg (sqrtQ : ℚ → ℚ) (w : List FVal) : FVal :=
  if 2 ≤ w.length && allFin w then .fin (sqrtQ (sampleVarL (finVals w))) else .nan

/-- pandas `rolling(window=p).std()`. -/
def rollingStdF (sqrtQ : ℚ → ℚ) (xs : List FVal) (p : ℕ) : List FVal :=
  rollingApply (stdAgg sqrtQ) xs p

/-- Core loop of pandas `ewm(adjust=False, ignore_na=False).mean()`, carrying
the weighted numerator and the weight sum.  A finite observation either seeds
the average (weight 1) or updates `(num, den) ↦ ((1-a)·num + a·x, (1-a)·den + a)`;
a missing observation decays both and reports the held value.  Infinite
inputs never arise from a valid series (they would need `close` outside
`[low, high]`) and are treated as missing. -/
def ewmGo (a : ℚ) (num den : ℚ) : List FVal → List FVal
  | [] => []
  | .fin q :: xs =>
      if den = 0 then .fin q :: ewmGo a q 1 xs
      else
        .fin (((1 - a) * num + a * q) / ((1 - a) * den + a)) ::
          ewmGo a ((1 - a) * num + a * q) ((1 - a) * den + a) xs
  | _ :: xs =>
      (if den = 0 then FVal.nan else .fin (num / den)) ::
        ewmGo a ((1 - a) * num) ((1 - a) * den) xs

/-- pandas `ewm(alpha=a, adjust=False).mean()` (for `ewm(span=s)`,
`a = 2/(s+1)`). -/
def ewmW (a : ℚ) (xs : List FVal) : List FVal := ewmGo a 0 0 xs

/-- pandas `Series.diff()`: NaN at index 0, `x[i] - x[i-1]` after. -/
def diffF : List FVal → List FVal
  | [] => []
  | x :: xs => .nan :: (xs.zip (x :: xs)).map fun p => fsub p.1 p.2

/-- A DataFrame: named columns of cells, in column order. -/
structure Frame where
  cols : List (String × List FVal)
deriving DecidableEq, Repr

/-- Number of rows (length of the first column; all columns agree on a
well-formed frame). -/
def Frame.nrows (f : Frame) : ℕ :=
  match f.cols with
  | [] => 0
  | c :: _ => c.2.length

/-- Column lookup by name. -/
def Frame.getCol (f : Frame) (name : String) : Option (List FVal) :=
  (f.cols.find? fun c => c.1 == name).map (·.2)

/-- `result[name] = col`: replace the column in place if the name exists,
else append it as the last column. -/
def setColGo (name : String) (col : List FVal) :
    List (String × List FVal) → List (String × List FVal)
  | [] => [(name, col)]
  | c :: rest => if c.1 = name then (name, col) :: rest else c :: setColGo name col rest

/-- `result[name] = col` on a frame. -/
def Frame.setCol (f : Frame) (name : String) (col : List FVal) : Frame :=
  ⟨setColGo name col f.cols⟩

/-- The cell of column `name` at row `i` (`none` when the column is absent
or the row out of range). -/
def Frame.cell (f : Frame) (name : String) (i : ℕ) : Option FVal :=
  (f.getCol name).bind fun l => l.get? i

/-- Every column has the frame's row count. -/
def Frame.WF (f : Frame) : Prop := ∀ c ∈ f.cols, c.2.length = f.nrows

instance (f : Frame) : Decidable f.WF := by
  unfold Frame.WF; infer_instance

/-- A bare price Series handed to the engine: one `close` column of finite
values. -/
def seriesFrame (closes : List ℚ) : Frame := ⟨[(("close"), closes.map .fin)]⟩

/-!
## Indicator engine (`src/indicators/calculator.py`)

Each operation copies the frame, adds columns, and returns the copy; a
missing input column raises inside the `try` and the `except` returns the
argument unchanged, which the models reflect by returning `f`.
-/

/-- `IndicatorCalculator.calculate_ma` (calculator.py:17-44): for each period
with `len(df) >= period`, adds `MA{p} = close.rolling(p).mean()`. -/
def calculate_ma (f : Frame) (periods : List ℕ) : Frame :=
  match f.getCol ("close") with
  | none => f
  | some cs =>
      periods.foldl
        (fun acc p =>
          if p ≤ f.nrows then acc.setCol (("MA") ++ Nat.repr p) (rollingMeanF cs p) else acc)
        f

/-- `IndicatorCalculator.calculate_ema` (calculator.py:46-73): for each period
with `len(df) >= period`, adds `EMA{p} = close.ewm(span=p, adjust=False).mean()`. -/
def calculate_ema (f : Frame) (periods : List ℕ) : Frame :=
  match f.getCol ("close") with
  | none => f
  | some cs =>
      periods.foldl
        (fun acc p =>
          if p ≤ f.nrows then
            acc.setCol (("EMA") ++ Nat.repr p) (ewmW (2 / ((p : ℚ) + 1)) cs)
          else acc)
        f

/-- `IndicatorCalculator.calculate_boll` (calculator.py:75-113): mid band,
then upper/lower as `mid ± k·rolling_std`. -/
def calculate_boll (sqrtQ : ℚ → ℚ) (f : Frame) (period : ℕ) (k : ℚ) : Frame :=
  if period ≤ f.nrows then
    match f.getCol ("close") with
    | none => f
    | some cs =>
        let mid := rollingMeanF cs period
        let std := rollingStdF sqrtQ cs period
        let upper := mid.zip std |>.map fun p => fadd p.1 (fmul (.fin k) p.2)
        let lower := mid.zip std |>.map fun p => fsub p.1 (fmul (.fin k) p.2)
        ((f.setCol (("BOLL_MID")) mid).setCol (("BOLL_UPPER")) upper).setCol
          (("BOLL_LOWER")) lower
  else f

/-- The gain series of `calculate_rsi`: `delta.where(delta > 0, 0)` — every
entry where the delta is not strictly positive (including the NaN first
delta) becomes 0. -/
def rsiGain (delta : List FVal) : List FVal :=
  delta.map fun d => if fgt d (.fin 0) then d else .fin 0

/-- The loss series of `calculate_rsi`: `-delta.where(delta < 0, 0)`. -/
def rsiLoss (delta : List FVal) : List FVal :=
  delta.map fun d => fneg (if flt d (.fin 0) then d else .fin 0)

/-- Rolling average gain of `calculate_rsi`. -/
def avgGainF (cs : List FVal) (p : ℕ) : List FVal := rollingMeanF (rsiGain (diffF cs)) p

/-- Rolling average loss of `calculate_rsi`. -/
def avgLossF (cs : List FVal) (p : ℕ) : List FVal := rollingMeanF (rsiLoss (diffF cs)) p

/-- The `RSI{p}` column: `100 - 100/(1 + avg_gain/avg_loss)`. -/
def rsiCol (cs : List FVal) (p : ℕ) : List FVal :=
  ((avgGainF cs p).zip (avgLossF cs p)).map fun q =>
    fsub (.fin 100) (fdiv (.fin 100) (fadd (.fin 1) (fdiv q.1 q.2)))

/-- `IndicatorCalculator.calculate_rsi` (calculator.py:115-156): for each
period with `len(df) >= period + 1`, adds the `RSI{p}` column. -/
def calculate_rsi (f : Frame) (periods : List ℕ) : Frame :=
  match f.getCol ("close") with
  | none => f
  | some cs =>
      periods.foldl
        (fun acc p =>
          if p + 1 ≤ f.nrows then acc.setCol (("RSI") ++ Nat.repr p) (rsiCol cs p) else acc)
        f

/-- `IndicatorCalculator.calculate_kdj` (calculator.py:158-203): RSV from the
rolling extrema, then K, D by recursive smoothing and J = 3K - 2D. -/
def calculate_kdj (f : Frame) (fastk slowk slowd : ℕ) : Frame :=
  if fastk ≤ f.nrows then
    match f.getCol ("close"), f.getCol ("low"), f.getCol ("high") with
    | some cs, some lows, some highs =>
        let lowMin := rollingMinF lows fastk
        let highMax := rollingMaxF highs fastk
        let rsv := (cs.zip (lowMin.zip highMax)).map fun t =>
          fmul (fdiv (fsub t.1 t.2.1) (fsub t.2.2 t.2.1)) (.fin 100)
        let kcol := ewmW (1 / (slowk : ℚ)) rsv
        let dcol := ewmW (1 / (slowd : ℚ)) kcol
        let jcol := (kcol.zip dcol).map fun p =>
          fsub (fmul (.fin 3) p.1) (fmul (.fin 2) p.2)
        ((f.setCol (("K")) kcol).setCol (("D")) dcol).setCol (("J")) jcol
    | _, _, _ => f
  else f

/-- `IndicatorCalculator.calculate_macd` (calculator.py:205-249): DIF as the
difference of the fast and slow EMAs, DEA as the EMA of DIF, HIST doubled. -/
def calculate_macd (f : Frame) (fast slow signal : ℕ) : Frame :=
  if slow ≤ f.nrows then
    match f.getCol ("close") with
    | none => f
    | some cs =>
        let dif := (ewmW (2 / ((fast : ℚ) + 1)) cs).zip (ewmW (2 / ((slow : ℚ) + 1)) cs)
          |>.map fun p => fsub p.1 p.2
        let dea := ewmW (2 / ((signal : ℚ) + 1)) dif
        let hist := (dif.zip dea).map fun p => fmul (fsub p.1 p.2) (.fin 2)
        ((f.setCol (("MACD_DIF")) dif).setCol (("MACD_DEA")) dea).setCol
          (("MACD_HIST")) hist
  else f

/-- `IndicatorCalculator.calculate_volume_ma` (calculator.py:251-279). -/
def calculate_volume_ma (f : Frame) (periods : List ℕ) : Frame :=
  match f.getCol ("volume") with
  | none => f
  | some vs =>
      periods.foldl
        (fun acc p =>
          if p ≤ f.nrows then acc.setCol (("VOL_MA") ++ Nat.repr p) (rollingMeanF vs p) else acc)
        f

/-- The running accumulation of `calculate_obv`: add the volume on a rising
close, subtract it on a falling close, hold it on a flat or NaN change. -/
def obvGo (prev : FVal) : List (FVal × FVal) → List FVal
  | [] => []
  | (pc, v) :: rest =>
      let cur := if fgt pc (.fin 0) then fadd prev v
        else if flt pc (.fin 0) then fsub prev v else prev
      cur :: obvGo cur rest

/-- The OBV column: seeded with the first volume, then accumulated against
`close.diff()`. -/
def obvList (pcs vols : List FVal) : List FVal :=
  match vols, pcs with
  | v :: vs, _ :: ps => v :: obvGo v (ps.zip vs)
  | _, _ => []

/-- `IndicatorCalculator.calculate_obv` (calculator.py:281-322). -/
def calculate_obv (f : Frame) : Frame :=
  if 1 < f.nrows then
    match f.getCol ("close"), f.getCol ("volume") with
    | some cs, some vs => f.setCol (("OBV")) (obvList (diffF cs) vs)
    | _, _ => f
  else f

/-- `IndicatorCalculator.calculate_all_indicators` (calculator.py:324-356):
the full canonical set with the documented default parameters, applied in
source order. -/
def calculate_all_indicators (sqrtQ : ℚ → ℚ) (f : Frame) : Frame :=
  calculate_obv
    (calculate_volume_ma
      (calculate_macd
        (calculate_kdj
          (calculate_rsi
            (calculate_boll sqrtQ
              (calculate_ema (calculate_ma f [5, 10, 20, 30, 60, 120, 250]) [12, 26])
              20 2)
            [6, 12, 24])
          9 3 3)
        12 26 9)
      [5, 10, 20])

/-!
## Latest-bar signals (`IndicatorCalculator.get_latest_signals`,
calculator.py:358-443)

The Python function returns a dict; `{}` (the short-input guard and the
`except` path for a frame without a `close` column) is modelled as `none`,
a populated dict as `some` of a `Signals` record.  The `ma`/`rsi` sub-dicts
are association lists in column order; the `macd`/`kdj` sub-dicts are `none`
when left empty.
-/

/-- The `price` sub-dict: `change`/`pct_change` fall back to the literal `0`
when the column is absent (`latest.get(col, 0)`); a NaN cell stays NaN. -/
structure PriceSig where
  current : FVal
  change : FVal
  pct_change : FVal
deriving DecidableEq, Repr

/-- One `ma` entry: the value and `"above"`/`"below"` the close. -/
structure MaSig where
  value : FVal
  position : String
deriving DecidableEq, Repr

/-- The `macd` sub-dict. -/
structure MacdSig where
  dif : FVal
  dea : FVal
  hist : FVal
  golden_cross : Bool
  death_cross : Bool
deriving DecidableEq, Repr

/-- The `kdj` sub-dict. -/
structure KdjSig where
  k : FVal
  d : FVal
  j : FVal
  overbought : Bool
  oversold : Bool
deriving DecidableEq, Repr

/-- One `rsi` entry. -/
structure RsiSig where
  value : FVal
  overbought : Bool
  oversold : Bool
deriving DecidableEq, Repr

/-- The populated signal dict. -/
structure Signals where
  price : PriceSig
  ma : List (String × MaSig)
  macd : Option MacdSig
  kdj : Option KdjSig
  rsi : List (String × RsiSig)
deriving DecidableEq, Repr

/-- `IndicatorCalculator.get_latest_signals` (calculator.py:358-443). -/
def get_latest_signals (f : Frame) : Option Signals :=
  if f.nrows < 2 then none
  else
    let last := f.nrows - 1
    match f.cell ("close") last with
    | none => none
    | some closeV =>
        let price : PriceSig :=
          { current := closeV
            change := (f.cell ("change") last).getD (.fin 0)
            pct_change := (f.cell ("pct_change") last).getD (.fin 0) }
        let ma : List (String × MaSig) :=
          f.cols.filterMap fun col =>
            if col.1.startsWith ("MA") then
              match col.2.get? last with
              | some v =>
                  if v.isNan then none
                  else some (col.1,
                    { value := v
                      position := if fgt closeV v then ("above") else ("below") })
              | none => none
            else none
        let macd : Option MacdSig :=
          if (f.getCol ("MACD_DIF")).isSome && (f.getCol ("MACD_DEA")).isSome then
            let dif := (f.cell ("MACD_DIF") last).getD .nan
            let dea := (f.cell ("MACD_DEA") last).getD .nan
            let pdif := (f.cell ("MACD_DIF") (last - 1)).getD .nan
            let pdea := (f.cell ("MACD_DEA") (last - 1)).getD .nan
            if !dif.isNan && !dea.isNan && !pdif.isNan && !pdea.isNan then
              some { dif := dif, dea := dea
                     hist := (f.cell ("MACD_HIST") last).getD (.fin 0)
                     golden_cross := fle pdif pdea && fgt dif dea
                     death_cross := fge pdif pdea && flt dif dea }
            else none
          else none
        let kdj : Option KdjSig :=
          if (f.getCol ("K")).isSome && (f.getCol ("D")).isSome && (f.getCol ("J")).isSome then
            let kv := (f.cell ("K") last).getD .nan
            let dv := (f.cell ("D") last).getD .nan
            let jv := (f.cell ("J") last).getD .nan
            if !kv.isNan && !dv.isNan && !jv.isNan then
              some { k := kv, d := dv, j := jv
                     overbought := fgt kv (.fin 80) && fgt dv (.fin 80)
                     oversold := flt kv (.fin 20) && flt dv (.fin 20) }
            else none
          else none
        let rsi : List (String × RsiSig) :=
          f.cols.filterMap fun col =>
            if col.1.startsWith ("RSI") then
              match col.2.get? last with
              | some v =>
                  if v.isNan then none
                  else some (col.1,
                    { value := v
                      overbought := fgt v (.fin 70)
                      oversold := flt v (.fin 30) })
              | none => none
            else none
        some { price := price, ma := ma, macd := macd, kdj := kdj, rsi := rsi }

/-!
## Analytics engine (`src/analysis/analyzer.py`)
-/

/-- The scan state of `DataAnalyzer.find_consecutive_days`
(analyzer.py:127-184): the signed running counter with the open run's start
date, the best up- and down-runs seen, and the still-open run at the tail. -/
structure StState where
  temp : ℤ
  tempStart : Option FVal
  maxUp : ℤ
  maxUpStart : Option FVal
  maxUpEnd : Option FVal
  maxDown : ℤ
  maxDownStart : Option FVal
  maxDownEnd : Option FVal
  cur : ℤ
  curType : Option String
deriving DecidableEq, Repr

/-- The initial scan state. -/
def stInit : StState :=
  { temp := 0, tempStart := none, maxUp := 0, maxUpStart := none, maxUpEnd := none
    maxDown := 0, maxDownStart := none, maxDownEnd := none, cur := 0, curType := none }

/-- One loop iteration of `find_consecutive_days` at row `i` of `n`: a NaN
return is skipped; a positive return extends or opens an up-run, a negative
one a down-run, a zero return resets the counter; the still-open run is
recorded only on the last row. -/
def streakStep (n : ℕ) (s : StState) (i : ℕ) (pct : FVal) (date : Option FVal) : StState :=
  if pct.isNan then s
  else if fgt pct (.fin 0) then
    let t := if 0 < s.temp then s.temp + 1 else 1
    let st := if 0 < s.temp then s.tempStart else date
    let s1 := { s with temp := t, tempStart := st }
    let s2 := if s1.maxUp < t then
        { s1 with maxUp := t, maxUpStart := st, maxUpEnd := date } else s1
    if i = n - 1 then { s2 with cur := t, curType := some ("up") } else s2
  else if flt pct (.fin 0) then
    let t := if s.temp < 0 then s.temp - 1 else -1
    let st := if s.temp < 0 then s.tempStart else date
    let s1 := { s with temp := t, tempStart := st }
    let s2 := if s1.maxDown < |t| then
        { s1 with maxDown := |t|, maxDownStart := st, maxDownEnd := date } else s1
    if i = n - 1 then { s2 with cur := |t|, curType := some ("down") } else s2
  else { s with temp := 0 }

/-- One streak of the result: day count and formatted start/end dates
(`strftime` is modelled as the identity on the date cell). -/
structure StreakInfo where
  days : ℤ
  start : Option FVal
  ending : Option FVal
deriving DecidableEq, Repr

/-- The dict `find_consecutive_days` returns. -/
structure StreakOut where
  currentType : Option String
  currentDays : ℤ
  maxUp : StreakInfo
  maxDown : StreakInfo
deriving DecidableEq, Repr

/-- `DataAnalyzer.find_consecutive_days` (analyzer.py:113-208).  The guard
`if df.empty or "pct_change" not in df.columns` executes a bare `return`,
i.e. Python `None`, modelled as `none`; a populated result dict is `some`. -/
def find_consecutive_days (f : Frame) : Option StreakOut :=
  if f.nrows = 0 then none
  else
    match f.getCol ("pct_change") with
    | none => none
    | some pcts =>
        let n := f.nrows
        let fin : StState :=
          (List.range n).foldl
            (fun s i => streakStep n s i (pcts.getD i .nan) (f.cell ("date") i)) stInit
        some
          { currentType := fin.curType
            currentDays := fin.cur
            maxUp := { days := fin.maxUp, start := fin.maxUpStart, ending := fin.maxUpEnd }
            maxDown :=
              { days := fin.maxDown, start := fin.maxDownStart, ending := fin.maxDownEnd } }

/-- Stable insertion into an ascending list (ties keep the incoming element
first, matching Python's stable `sorted`). -/
def insertLe (x : ℚ) : List ℚ → List ℚ
  | [] => [x]
  | y :: ys => if x ≤ y then x :: y :: ys else y :: insertLe x ys

/-- Python `sorted(levels)`: stable ascending sort. -/
def sortAsc (l : List ℚ) : List ℚ := l.foldr insertLe []

/-- Stable insertion into a descending list. -/
def insertGe (x : ℚ) : List ℚ → List ℚ
  | [] => [x]
  | y :: ys => if y ≤ x then x :: y :: ys else y :: insertGe x ys

/-- Python `sorted(levels, reverse=True)`: stable descending sort. -/
def sortDesc (l : List ℚ) : List ℚ := l.foldr insertGe []

/-- The greedy clustering fold of `detect_support_resistance`
(analyzer.py:331-347), on the ascending candidate list: `done` holds the
collapsed clusters, `cur` the open cluster reversed (head = last member). -/
def clusterGo (tol : ℚ) : List ℚ × List ℚ → ℚ → List ℚ × List ℚ
  | (done, cur), level =>
      let lastMember := cur.headD 0
      if (level - lastMember) / lastMember < tol then (done, level :: cur)
      else (done ++ [listMean cur.reverse], [level])

/-- `cluster_levels(levels, tolerance)`: sort ascending, cluster greedily,
collapse each cluster to its arithmetic mean. -/
def cluster_levels (levels : List ℚ) (tol : ℚ) : List ℚ :=
  match sortAsc levels with
  | [] => []
  | l0 :: rest =>
      let p := rest.foldl (clusterGo tol) ([], [l0])
      p.1 ++ [listMean p.2.reverse]

/-- pandas `.max()` of a slice (only ever applied to nonempty windows). -/
def windowMax : List ℚ → ℚ
  | [] => 0
  | h :: t => t.foldl max h

/-- pandas `.min()` of a slice. -/
def windowMin : List ℚ → ℚ
  | [] => 0
  | h :: t => t.foldl min h

/-- The local-maximum scan of `detect_support_resistance`
(analyzer.py:321-324): bar `i` with `w ≤ i < n - w` is a candidate when its
high equals the maximum high over the symmetric window `[i-w, i+w]`. -/
def localMaxCandidates (highs : List ℚ) (w : ℕ) : List ℚ :=
  (List.range' w (highs.length - w - w)).filterMap fun i =>
    if highs.getD i 0 = windowMax ((highs.drop (i - w)).take (2 * w + 1)) then
      some (highs.getD i 0)
    else none

/-- The local-minimum scan (analyzer.py:326-328). -/
def localMinCandidates (lows : List ℚ) (w : ℕ) : List ℚ :=
  (List.range' w (lows.length - w - w)).filterMap fun i =>
    if lows.getD i 0 = windowMin ((lows.drop (i - w)).take (2 * w + 1)) then
      some (lows.getD i 0)
    else none

/-- The dict `detect_support_resistance` returns. -/
structure SupportResistance where
  resistance : List ℚ
  support : List ℚ
deriving DecidableEq, Repr

/-- `DataAnalyzer.detect_support_resistance` (analyzer.py:296-363), for a
Series with finite `high`/`low` columns: cluster the candidate extrema with
tolerance 2 % and return the top `num_levels` of each list, sorted descending
by price. -/
def detect_support_resistance (highs lows : List ℚ) (window num_levels : ℕ) :
    SupportResistance :=
  if highs.length < window then { resistance := [], support := [] }
  else
    { resistance := (sortDesc (cluster_levels (localMaxCandidates highs window) (2/100))).take num_levels
      support := (sortDesc (cluster_levels (localMinCandidates lows window) (2/100))).take num_levels }

/-- Does `latest > avg + k·σ` where `σ = √v`?  Encoded exactly over ℚ by
squaring: for `v ≥ 0`, `avg + k·√v < latest ↔ avg < latest ∧ k²·v <
(latest-avg)²` (theorem `c6_volume_status_strict` proves this against the
real square root). -/
def gtMeanPlusKStd (latest avg v : ℚ) (k : ℕ) : Bool :=
  decide (avg < latest) && decide ((k : ℚ) ^ 2 * v < (latest - avg) ^ 2)

/-- Does `latest < avg - σ`? -/
def ltMeanMinusStd (latest avg v : ℚ) : Bool :=
  decide (latest < avg) && decide (v < (avg - latest) ^ 2)

/-- The volume-status classification of `DataAnalyzer.analyze_volume_price`
(analyzer.py:408-419) for a Series with finite volumes: the latest volume
against the mean and the sample standard deviation.  With fewer than two
bars the std is NaN, every comparison is false, and the status is
`"normal"`. -/
def volume_status (volumes : List ℚ) : String :=
  let avg := listMean volumes
  let latest := volumes.getLastD 0
  if volumes.length ≤ 1 then ("normal")
  else
    let v := sampleVarL volumes
    if gtMeanPlusKStd latest avg v 2 then ("extremely_high")
    else if gtMeanPlusKStd latest avg v 1 then ("high")
    else if ltMeanMinusStd latest avg v then ("low")
    else ("normal")

/-!
## Helper lemmas
-/

/-- Two strings differ when their leading characters do, even after appending. -/
lemma ne_of_data_head (x y s : String) (cx : Char) (tx : List Char) (cy : Char)
    (ty : List Char) (hx : x.data = cx :: tx) (hy : y.data = cy :: ty) (hne : cx ≠ cy) :
    x ≠ y ++ s := by
  intro h
  apply hne
  have h2 := congrArg String.data h
  rw [String.data_append, hy, hx] at h2
  exact (List.cons.injEq cx tx cy (ty ++ s.data) ▸ h2).1

lemma close_ne_ma (s : String) : ("close" : String) ≠ ("MA") ++ s :=
  ne_of_data_head _ _ _ 'c' _ 'M' _ rfl rfl (by decide)

lemma close_ne_ema (s : String) : ("close" : String) ≠ ("EMA") ++ s :=
  ne_of_data_head _ _ _ 'c' _ 'E' _ rfl rfl (by decide)

lemma close_ne_rsi (s : String) : ("close" : String) ≠ ("RSI") ++ s :=
  ne_of_data_head _ _ _ 'c' _ 'R' _ rfl rfl (by decide)

lemma foldl_fadd_map_fin (l : List ℚ) (q : ℚ) :
    (l.map FVal.fin).foldl fadd (.fin q) = .fin (q + l.sum) := by
  induction l generalizing q with
  | nil => simp
  | cons x xs ih => simp [fadd, ih, add_assoc]

/-- The IEEE sum of finite cells is the finite sum. -/
lemma sumF_map_fin (l : List ℚ) : sumF (l.map .fin) = .fin l.sum := by
  simpa using foldl_fadd_map_fin l 0

/-- The IEEE mean of a nonempty list of finite cells. -/
lemma meanF_map_fin (l : List ℚ) (h : l ≠ []) :
    meanF (l.map .fin) = .fin (l.sum / (l.length : ℚ)) := by
  have hl : (l.length : ℚ) ≠ 0 := by
    simpa using fun h0 => h (List.length_eq_zero.mp h0)
  unfold meanF
  rw [sumF_map_fin]
  simp [fdiv, hl]

/-- Reading one entry of a rolling computation. -/
lemma rollingApply_get? (agg : List FVal → FVal) (xs : List FVal) (p i : ℕ)
    (h : i < xs.length) :
    (rollingApply agg xs p).get? i
      = some (if p ≤ i + 1 then agg ((xs.drop (i + 1 - p)).take p) else .nan) := by
  unfold rollingApply
  rw [List.get?_map, List.get?_range h]
  rfl

lemma nrows_seriesFrame (closes : List ℚ) : (seriesFrame closes).nrows = closes.length := by
  simp [seriesFrame, Frame.nrows]

lemma getCol_close_seriesFrame (closes : List ℚ) :
    (seriesFrame closes).getCol ("close") = some (closes.map .fin) := by
  simp [seriesFrame, Frame.getCol, List.find?]

/-!
## C1 — MA(p) is the trailing-p arithmetic mean, NaN/absent before index p-1
-/

lemma calculate_ma_single (closes : List ℚ) (p : ℕ) :
    calculate_ma (seriesFrame closes) [p]
      = if p ≤ closes.length then
          ⟨[(("close"), closes.map .fin),
            (("MA") ++ Nat.repr p, rollingMeanF (closes.map .fin) p)]⟩
        else seriesFrame closes := by
  unfold calculate_ma
  rw [getCol_close_seriesFrame]
  simp only [nrows_seriesFrame, List.foldl]
  by_cases hp : p ≤ closes.length
  · simp [hp, Frame.setCol, seriesFrame, setColGo, (close_ne_ma (Nat.repr p))]
  · simp [hp]

lemma getCol_ma_two (closes : List ℚ) (p : ℕ) (col : List FVal) :
    (Frame.getCol ⟨[(("close"), closes.map .fin), (("MA") ++ Nat.repr p, col)]⟩
      (("MA") ++ Nat.repr p)) = some col := by
  unfold Frame.getCol
  rw [List.find?_cons]
  have h1 : ((("close") : String) == ("MA") ++ Nat.repr p) = false :=
    beq_eq_false_iff_ne.mpr (close_ne_ma (Nat.repr p))
  rw [h1]
  simp [List.find?]

/-- C1.  For every Series and period `p ≥ 1`, the `MA{p}` cell at a valid
index `i` equals the arithmetic mean of the trailing `p` closes when
`i ≥ p-1`; for `i < p-1` it is the NaN marker (or the whole column is absent
when the Series is shorter than `p`) — never a number.  In particular for
closes `[1,2,3,4,5]` and `p = 3` the column is `[NaN, NaN, 2, 3, 4]`. -/
theorem c1_ma_trailing_mean :
    (∀ (closes : List ℚ) (p i : ℕ), 1 ≤ p → i < closes.length →
      (p - 1 ≤ i →
        (calculate_ma (seriesFrame closes) [p]).cell (("MA") ++ Nat.repr p) i
          = some (.fin ((((closes.drop (i + 1 - p)).take p).sum) / (p : ℚ)))) ∧
      (i < p - 1 → p ≤ closes.length →
        (calculate_ma (seriesFrame closes) [p]).cell (("MA") ++ Nat.repr p) i
          = some FVal.nan) ∧
      (closes.length < p →
        (calculate_ma (seriesFrame closes) [p]).cell (("MA") ++ Nat.repr p) i = none))
    ∧ (calculate_ma (seriesFrame [1, 2, 3, 4, 5]) [3]).getCol (("MA3"))
        = some [FVal.nan, FVal.nan, .fin 2, .fin 3, .fin 4] := by
  constructor
  · intro closes p i hp hi
    refine ⟨?_, ?_, ?_⟩
    · intro hpi
      have hpn : p ≤ closes.length := by omega
      rw [calculate_ma_single, if_pos hpn]
      unfold Frame.cell
      rw [getCol_ma_two]
      unfold rollingMeanF
      simp only [Option.some_bind]
      rw [rollingApply_get? _ _ _ _ (by simpa using hi)]
      rw [if_pos (by omega)]
      rw [← List.map_drop, ← List.map_take]
      have hlen : ((closes.drop (i + 1 - p)).take p).length = p := by
        simp [List.length_take, List.length_drop]
        omega
      have hne : (closes.drop (i + 1 - p)).take p ≠ [] := by
        intro h0
        rw [h0] at hlen
        simp at hlen
        omega
      rw [meanF_map_fin _ hne, hlen]
    · intro hlt hpn
      rw [calculate_ma_single, if_pos hpn]
      unfold Frame.cell
      rw [getCol_ma_two]
      unfold rollingMeanF
      simp only [Option.some_bind]
      rw [rollingApply_get? _ _ _ _ (by simpa using hi)]
      rw [if_neg (by omega)]
    · intro hgt
      rw [calculate_ma_single, if_neg (by omega)]
      unfold Frame.cell
      have : (seriesFrame closes).getCol (("MA") ++ Nat.repr p) = none := by
        unfold Frame.getCol seriesFrame
        rw [List.find?_cons]
        have h1 : ((("close") : String) == ("MA") ++ Nat.repr p) = false :=
          beq_eq_false_iff_ne.mpr (close_ne_ma (Nat.repr p))
        rw [h1]
        simp [List.find?]
      rw [this]
      rfl
  · with_unfolding_all decide

/-!
## C4 — EMA seeding and recursion; the column is absent for a short Series
-/

/-- The spec's EMA recursion after the seed: `y ↦ (1-a)·y + a·x`. -/
def emaGo (a y : ℚ) : List ℚ → List ℚ
  | [] => []
  | x :: xs => ((1 - a) * y + a * x) :: emaGo a ((1 - a) * y + a * x) xs

/-- The spec's EMA sequence: seeded with the first close. -/
def emaSeq (a : ℚ) : List ℚ → List ℚ
  | [] => []
  | x :: xs => x :: emaGo a x xs

lemma ewmGo_fin (a : ℚ) (l : List ℚ) :
    ∀ y : ℚ, ewmGo a y 1 (l.map .fin) = (emaGo a y l).map .fin := by
  induction l with
  | nil => intro y; rfl
  | cons x xs ih =>
      intro y
      simp only [List.map_cons, ewmGo, emaGo]
      rw [if_neg one_ne_zero]
      have h1 : (1 - a) * 1 + a = 1 := by ring
      rw [h1, div_one, ih]

/-- On an all-finite column, the pandas `ewm` model is exactly the seeded
recursion of the spec. -/
lemma ewmW_fin (a : ℚ) (closes : List ℚ) :
    ewmW a (closes.map .fin) = (emaSeq a closes).map .fin := by
  cases closes with
  | nil => rfl
  | cons x xs =>
      show ewmGo a 0 0 (.fin x :: xs.map .fin) = _
      simp [ewmGo, emaSeq, List.map_cons, ewmGo_fin]

lemma emaGo_length (a : ℚ) (l : List ℚ) : ∀ y : ℚ, (emaGo a y l).length = l.length := by
  induction l with
  | nil => intro y; rfl
  | cons x xs ih => intro y; simp [emaGo, ih]

lemma emaSeq_length (a : ℚ) (closes : List ℚ) : (emaSeq a closes).length = closes.length := by
  cases closes with
  | nil => rfl
  | cons x xs => simp [emaSeq, emaGo_length]

lemma emaGo_getD_succ (a : ℚ) (l : List ℚ) :
    ∀ (y : ℚ) (i : ℕ), i + 1 < l.length →
      (emaGo a y l).getD (i + 1) 0
        = (1 - a) * (emaGo a y l).getD i 0 + a * l.getD (i + 1) 0 := by
  induction l with
  | nil => intro y i h; simp at h
  | cons x xs ih =>
      intro y i h
      cases i with
      | zero =>
          cases xs with
          | nil => simp at h
          | cons z zs => simp [emaGo]
      | succ j =>
          have h2 : j + 1 < xs.length := by simpa using h
          simpa [emaGo] using ih ((1 - a) * y + a * x) j h2

lemma emaSeq_getD_succ (a : ℚ) (closes : List ℚ) (i : ℕ) (h : i + 1 < closes.length) :
    (emaSeq a closes).getD (i + 1) 0
      = (1 - a) * (emaSeq a closes).getD i 0 + a * closes.getD (i + 1) 0 := by
  cases closes with
  | nil => simp at h
  | cons x xs =>
      cases i with
      | zero =>
          cases xs with
          | nil => simp at h
          | cons z zs => simp [emaSeq, emaGo]
      | succ j =>
          have h2 : j + 1 < xs.length := by simpa using h
          simpa [emaSeq, emaGo] using emaGo_getD_succ a xs x j h2

lemma calculate_ema_single (closes : List ℚ) (span : ℕ) :
    calculate_ema (seriesFrame closes) [span]
      = if span ≤ closes.length then
          ⟨[(("close"), closes.map .fin),
            (("EMA") ++ Nat.repr span, ewmW (2 / ((span : ℚ) + 1)) (closes.map .fin))]⟩
        else seriesFrame closes := by
  unfold calculate_ema
  rw [getCol_close_seriesFrame]
  simp only [nrows_seriesFrame, List.foldl]
  by_cases hp : span ≤ closes.length
  · simp [hp, Frame.setCol, seriesFrame, setColGo, (close_ne_ema (Nat.repr span))]
  · simp [hp]

/-- C4 counterexample.  The claim says EMA is defined from index 0 even when
the Series has fewer bars than the span; but `calculate_ema` only adds the
column when `len(df) >= span`, so a one-bar Series gets no `EMA12` at all. -/
theorem c4_ema_short_series_counterexample :
    (calculate_ema (seriesFrame [1]) [12]).cell (("EMA12")) 0 = none := by
  with_unfolding_all decide

/-- C4 as amended.  When the Series has at least `span` bars, `EMA{span}` is
defined at every index, seeded `EMA[0] = close[0]` and following
`EMA[i] = α·close[i] + (1-α)·EMA[i-1]` with `α = 2/(span+1)`; when the Series
has fewer bars than `span`, the column is absent entirely. -/
theorem c4_ema_recursion :
    (∀ (closes : List ℚ) (span : ℕ), 1 ≤ span → span ≤ closes.length →
      (calculate_ema (seriesFrame closes) [span]).getCol (("EMA") ++ Nat.repr span)
        = some ((emaSeq (2 / ((span : ℚ) + 1)) closes).map .fin)
      ∧ (emaSeq (2 / ((span : ℚ) + 1)) closes).length = closes.length)
    ∧ (∀ (closes : List ℚ) (span : ℕ), closes.length < span →
      (calculate_ema (seriesFrame closes) [span]).getCol (("EMA") ++ Nat.repr span) = none)
    ∧ (∀ (a x : ℚ) (xs : List ℚ), (emaSeq a (x :: xs)).getD 0 0 = x)
    ∧ (∀ (a : ℚ) (closes : List ℚ) (i : ℕ), i + 1 < closes.length →
      (emaSeq a closes).getD (i + 1) 0
        = a * closes.getD (i + 1) 0 + (1 - a) * (emaSeq a closes).getD i 0) := by
  refine ⟨?_, ?_, ?_, ?_⟩
  · intro closes span _ hsp
    constructor
    · rw [calculate_ema_single, if_pos hsp]
      unfold Frame.getCol
      rw [List.find?_cons]
      have h1 : ((("close") : String) == ("EMA") ++ Nat.repr span) = false :=
        beq_eq_false_iff_ne.mpr (close_ne_ema (Nat.repr span))
      rw [h1]
      simp [List.find?, ewmW_fin]
    · exact emaSeq_length _ _
  · intro closes span h
    rw [calculate_ema_single, if_neg (by omega)]
    unfold Frame.getCol seriesFrame
    rw [List.find?_cons]
    have h1 : ((("close") : String) == ("EMA") ++ Nat.repr span) = false :=
      beq_eq_false_iff_ne.mpr (close_ne_ema (Nat.repr span))
    rw [h1]
    simp [List.find?]
  · intro a x xs; rfl
  · intro a closes i h
    rw [emaSeq_getD_succ a closes i h]
    ring

/-!
## C5 — RSI definedness boundary and the avg-loss-zero case
-/

lemma diffF_length (xs : List FVal) : (diffF xs).length = xs.length := by
  cases xs with
  | nil => rfl
  | cons x rest => simp [diffF]

lemma mem_diffF_map_fin (closes : List ℚ) (v : FVal)
    (h : v ∈ diffF (closes.map .fin)) : v = .nan ∨ ∃ q, v = .fin q := by
  cases closes with
  | nil => simp [diffF] at h
  | cons x rest =>
      simp only [List.map_cons, diffF, List.mem_cons, List.mem_map] at h
      rcases h with h | ⟨pr, hpr, hv⟩
      · exact Or.inl h
      · right
        have h1 := List.mem_zip hpr
        obtain ⟨q1, hq1⟩ : ∃ q1, pr.1 = FVal.fin q1 := by
          have := h1.1
          simp only [List.mem_map] at this
          obtain ⟨a, _, ha⟩ := this
          exact ⟨a, ha.symm⟩
        obtain ⟨q2, hq2⟩ : ∃ q2, pr.2 = FVal.fin q2 := by
          have := h1.2
          simp only [List.mem_cons, List.mem_map] at this
          rcases this with h2 | ⟨a, _, ha⟩
          · exact ⟨x, h2⟩
          · exact ⟨a, ha.symm⟩
        exact ⟨q1 - q2, by rw [← hv, hq1, hq2]; simp [fsub, fadd, fneg, sub_eq_add_neg]⟩

lemma mem_rsiGain_fin (closes : List ℚ) (v : FVal)
    (h : v ∈ rsiGain (diffF (closes.map .fin))) : ∃ q, v = .fin q ∧ 0 ≤ q := by
  simp only [rsiGain, List.mem_map] at h
  obtain ⟨d, hd, hv⟩ := h
  rcases mem_diffF_map_fin closes d hd with rfl | ⟨q, rfl⟩
  · exact ⟨0, by simp [← hv, fgt]⟩
  · by_cases hq : 0 < q
    · exact ⟨q, by simp [← hv, fgt, hq], le_of_lt hq⟩
    · exact ⟨0, by simp [← hv, fgt, hq]⟩

lemma foldl_fadd_nonneg (w : List FVal) :
    ∀ c : ℚ, (∀ v ∈ w, ∃ q, v = .fin q ∧ 0 ≤ q) →
      ∃ s, w.foldl fadd (.fin c) = .fin s ∧ c ≤ s := by
  induction w with
  | nil => intro c _; exact ⟨c, rfl, le_refl c⟩
  | cons v vs ih =>
      intro c hw
      obtain ⟨q, hv, hq⟩ := hw v (List.mem_cons_self v vs)
      obtain ⟨s, hs, hcs⟩ := ih (c + q) fun u hu => hw u (List.mem_cons_of_mem v hu)
      refine ⟨s, ?_, by linarith⟩
      rw [List.foldl_cons, hv]
      simpa [fadd] using hs

/-- The mean of a nonempty window of nonnegative finite cells is a
nonnegative finite value. -/
lemma meanF_nonneg (w : List FVal) (hne : w ≠ [])
    (hw : ∀ v ∈ w, ∃ q, v = .fin q ∧ 0 ≤ q) :
    ∃ g, meanF w = .fin g ∧ 0 ≤ g := by
  obtain ⟨s, hs, hcs⟩ := foldl_fadd_nonneg w 0 hw
  have hl : (w.length : ℚ) ≠ 0 := by
    simpa using fun h0 => hne (List.length_eq_zero.mp h0)
  refine ⟨s / (w.length : ℚ), ?_, ?_⟩
  · unfold meanF sumF
    rw [hs]
    simp [fdiv, hl]
  · have : (0 : ℚ) ≤ (w.length : ℚ) := by positivity
    positivity

lemma get?_zip_eq {α β : Type} (l1 : List α) :
    ∀ (l2 : List β) (i : ℕ) (a : α) (b : β), l1.get? i = some a → l2.get? i = some b →
      (l1.zip l2).get? i = some (a, b) := by
  induction l1 with
  | nil => intro l2 i a b h1 _; simp at h1
  | cons x xs ih =>
      intro l2 i a b h1 h2
      cases l2 with
      | nil => simp at h2
      | cons y ys =>
          cases i with
          | zero =>
              simp only [List.get?] at h1 h2
              simp [List.zip_cons_cons, h1.symm, h2.symm]
              exact ⟨by injection h1, by injection h2⟩
          | succ j =>
              simp only [List.get?] at h1 h2
              simpa [List.zip_cons_cons] using ih ys j a b h1 h2

lemma calculate_rsi_single (closes : List ℚ) (p : ℕ) :
    calculate_rsi (seriesFrame closes) [p]
      = if p + 1 ≤ closes.length then
          ⟨[(("close"), closes.map .fin),
            (("RSI") ++ Nat.repr p, rsiCol (closes.map .fin) p)]⟩
        else seriesFrame closes := by
  unfold calculate_rsi
  rw [getCol_close_seriesFrame]
  simp only [nrows_seriesFrame, List.foldl]
  by_cases hp : p + 1 ≤ closes.length
  · simp [hp, Frame.setCol, seriesFrame, setColGo, (close_ne_rsi (Nat.repr p))]
  · simp [hp]

lemma cell_rsi (closes : List ℚ) (p i : ℕ) (hp : p + 1 ≤ closes.length) :
    (calculate_rsi (seriesFrame closes) [p]).cell (("RSI") ++ Nat.repr p) i
      = (rsiCol (closes.map .fin) p).get? i := by
  rw [calculate_rsi_single, if_pos hp]
  unfold Frame.cell Frame.getCol
  rw [List.find?_cons]
  have h1 : ((("close") : String) == ("RSI") ++ Nat.repr p) = false :=
    beq_eq_false_iff_ne.mpr (close_ne_rsi (Nat.repr p))
  rw [h1]
  simp [List.find?]

/-- C5 counterexample.  On constant closes `[5,5,5]` with `p = 2`, the
avg-loss at index 2 is exactly 0 yet `RSI2[2]` is NaN (the `0/0` of
avg-gain/avg-loss), not the claimed clamped 100; and on rising closes
`[1,2,3]`, `RSI2[1]` is already defined (= 100) at index `1 = p-1 < p`,
where the claim says RSI must be undefined. -/
theorem c5_rsi_counterexample :
    (calculate_rsi (seriesFrame [5, 5, 5]) [2]).cell (("RSI2")) 2 = some FVal.nan
    ∧ (avgLossF ([5, 5, 5].map .fin) 2).get? 2 = some (.fin 0)
    ∧ (avgGainF ([5, 5, 5].map .fin) 2).get? 2 = some (.fin 0)
    ∧ (calculate_rsi (seriesFrame [1, 2, 3]) [2]).cell (("RSI2")) 1 = some (.fin 100) := by
  refine ⟨?_, ?_, ?_, ?_⟩ <;> with_unfolding_all decide

/-- C5 as amended.  `RSI{p}` is defined from index `p-1` on (the NaN first
delta is coerced to a zero gain/loss by `delta.where`), not from `p`; at an
index where the rolling avg-loss is exactly 0, RSI is the clamped 100 when
the avg-gain is nonzero, but NaN (undefined) when the avg-gain is also 0;
below index `p-1` it is NaN. -/
theorem c5_rsi_clamp :
    ∀ (closes : List ℚ) (p i : ℕ), 1 ≤ p → p + 1 ≤ closes.length → i < closes.length →
      (p - 1 ≤ i →
        ((avgLossF (closes.map .fin) p).get? i = some (.fin 0) →
          ((avgGainF (closes.map .fin) p).get? i ≠ some (.fin 0) →
            (calculate_rsi (seriesFrame closes) [p]).cell (("RSI") ++ Nat.repr p) i
              = some (.fin 100)) ∧
          ((avgGainF (closes.map .fin) p).get? i = some (.fin 0) →
            (calculate_rsi (seriesFrame closes) [p]).cell (("RSI") ++ Nat.repr p) i
              = some FVal.nan))) ∧
      (i < p - 1 →
        (calculate_rsi (seriesFrame closes) [p]).cell (("RSI") ++ Nat.repr p) i
          = some FVal.nan) := by
  intro closes p i hp hpn hi
  have hlen_g : (rsiGain (diffF (closes.map .fin))).length = closes.length := by
    simp [rsiGain, diffF_length]
  have hlen_l : (rsiLoss (diffF (closes.map .fin))).length = closes.length := by
    simp [rsiLoss, diffF_length]
  constructor
  · intro hpi hal
    have hag : ∃ g, (avgGainF (closes.map .fin) p).get? i = some (.fin g) ∧ 0 ≤ g := by
      unfold avgGainF rollingMeanF
      rw [rollingApply_get? _ _ _ _ (by omega)]
      rw [if_pos (by omega)]
      have hwne : (((rsiGain (diffF (closes.map .fin))).drop (i + 1 - p)).take p) ≠ [] := by
        intro h0
        have := congrArg List.length h0
        simp [List.length_take, List.length_drop, hlen_g] at this
        omega
      obtain ⟨g, hg, hg0⟩ := meanF_nonneg _ hwne (by
        intro v hv
        exact mem_rsiGain_fin closes v
          (List.mem_of_mem_drop (List.mem_of_mem_take hv)))
      exact ⟨g, by rw [hg], hg0⟩
    obtain ⟨g, hg, hg0⟩ := hag
    have hcell : (calculate_rsi (seriesFrame closes) [p]).cell (("RSI") ++ Nat.repr p) i
        = some (fsub (.fin 100) (fdiv (.fin 100)
            (fadd (.fin 1) (fdiv (.fin g) (.fin 0))))) := by
      rw [cell_rsi closes p i hpn]
      unfold rsiCol
      rw [List.get?_map, get?_zip_eq _ _ _ _ _ hg hal]
      rfl
    constructor
    · intro hne
      have hgpos : 0 < g := by
        rcases lt_or_eq_of_le hg0 with h | h
        · exact h
        · exact absurd (by rw [hg, ← h]) hne
      rw [hcell]
      have h1 : fdiv (.fin g) (.fin 0) = FVal.pinf := by
        simp [fdiv, hgpos, ne_of_gt hgpos]
      rw [h1]
      simp [fadd, fdiv, fsub, fneg]
    · intro hz
      have hgz : g = 0 := by
        rw [hg] at hz
        injection hz with h
        injection h
      rw [hcell, hgz]
      simp [fdiv, fadd, fsub, fneg]
  · intro hlt
    have hnan_g : (avgGainF (closes.map .fin) p).get? i = some FVal.nan := by
      unfold avgGainF rollingMeanF
      rw [rollingApply_get? _ _ _ _ (by omega), if_neg (by omega)]
    have hnan_l : (avgLossF (closes.map .fin) p).get? i = some FVal.nan := by
      unfold avgLossF rollingMeanF
      rw [rollingApply_get? _ _ _ _ (by omega), if_neg (by omega)]
    rw [cell_rsi closes p i hpn]
    unfold rsiCol
    rw [List.get?_map, get?_zip_eq _ _ _ _ _ hnan_g hnan_l]
    rfl

/-- Witness for C5 as amended, at closes `[1, 2, 4, 8]`, `p = 2`, `i = 3`:
the avg-loss there is exactly 0, the avg-gain is 3 ≠ 0, and `RSI2[3]` is the
clamped 100. -/
theorem c5_rsi_clamp_witness :
    (calculate_rsi (seriesFrame [1, 2, 4, 8]) [2]).cell (("RSI2")) 3 = some (.fin 100) := by
  have h := c5_rsi_clamp [1, 2, 4, 8] 2 3 (by norm_num) (by norm_num) (by norm_num)
  exact (h.1 (by norm_num) (by with_unfolding_all decide)).1 (by with_unfolding_all decide)

/-!
## C2 — consecutive-day streak scan
-/

/-- C2.  The scan-step semantics of `find_consecutive_days`: a NaN return is
skipped, a positive return extends or opens an up-run, a negative return a
down-run, and a zero return resets the signed counter (breaking both kinds
of run); and on the pct_change sequence `[+1, +1, -1, 0, +1]` (dates 0..4)
the result is max_up = 2 days (dates 0-1), max_down = 1 day (date 2), and a
still-open up-run of 1 day. -/
theorem c2_consecutive_days :
    (∀ (n i : ℕ) (s : StState) (d : Option FVal), streakStep n s i .nan d = s)
    ∧ (∀ (n i : ℕ) (s : StState) (d : Option FVal) (q : ℚ), 0 < q →
        (streakStep n s i (.fin q) d).temp = if 0 < s.temp then s.temp + 1 else 1)
    ∧ (∀ (n i : ℕ) (s : StState) (d : Option FVal) (q : ℚ), q < 0 →
        (streakStep n s i (.fin q) d).temp = if s.temp < 0 then s.temp - 1 else -1)
    ∧ (∀ (n i : ℕ) (s : StState) (d : Option FVal),
        streakStep n s i (.fin 0) d = { s with temp := 0 })
    ∧ find_consecutive_days
        ⟨[(("pct_change"), [.fin 1, .fin 1, .fin (-1), .fin 0, .fin 1]),
          (("date"), [.fin 0, .fin 1, .fin 2, .fin 3, .fin 4])]⟩
      = some
          { currentType := some ("up")
            currentDays := 1
            maxUp := { days := 2, start := some (.fin 0), ending := some (.fin 1) }
            maxDown := { days := 1, start := some (.fin 2), ending := some (.fin 2) } } := by
  refine ⟨?_, ?_, ?_, ?_, ?_⟩
  · intro n i s d
    simp [streakStep, isNan]
  · intro n i s d q hq
    unfold streakStep
    rw [if_neg (by simp [isNan]), if_pos (by simp [fgt, hq])]
    by_cases hc : i = n - 1 <;> by_cases ht : 0 < s.temp <;>
      simp [hc, ht] <;> split <;> simp
  · intro n i s d q hq
    unfold streakStep
    rw [if_neg (by simp [isNan]), if_neg (by simp [fgt, not_lt.mpr (le_of_lt hq)]),
      if_pos (by simp [flt, fgt, hq])]
    by_cases hc : i = n - 1 <;> by_cases ht : s.temp < 0 <;>
      simp [hc, ht] <;> split <;> simp
  · intro n i s d
    unfold streakStep
    rw [if_neg (by simp [isNan]), if_neg (by simp [fgt]), if_neg (by simp [flt, fgt])]
  · with_unfolding_all decide

/-!
## C6 — volume-status boundaries are strict
-/

lemma sampleVarL_nonneg (l : List ℚ) (h : 2 ≤ l.length) : 0 ≤ sampleVarL l := by
  unfold sampleVarL
  apply div_nonneg
  · apply List.sum_nonneg
    intro x hx
    simp only [List.mem_map] at hx
    obtain ⟨y, _, rfl⟩ := hx
    positivity
  · have h2 : (2 : ℚ) ≤ (l.length : ℚ) := by exact_mod_cast h
    linarith

/-- `k·√v < a` iff `0 < a` and `k²·v < a²`, for `v ≥ 0`, `k > 0`. -/
lemma lt_mul_sqrt_iff (a v : ℝ) (hv : 0 ≤ v) (k : ℝ) (hk : 0 < k) :
    k * Real.sqrt v < a ↔ 0 < a ∧ k ^ 2 * v < a ^ 2 := by
  constructor
  · intro h
    have ha : 0 < a := lt_of_le_of_lt (by positivity) h
    refine ⟨ha, ?_⟩
    have h2 : Real.sqrt (k ^ 2 * v) < a := by
      rwa [Real.sqrt_mul (by positivity) v, Real.sqrt_sq (le_of_lt hk)]
    exact (Real.sqrt_lt' ha).mp h2
  · rintro ⟨ha, h2⟩
    have h3 := (Real.sqrt_lt' ha).mpr h2
    rwa [Real.sqrt_mul (by positivity) v, Real.sqrt_sq (le_of_lt hk)] at h3

/-- The ℚ encoding of `latest > mean + k·σ` agrees with the real
square-root comparison. -/
lemma gtMeanPlusKStd_iff (t a v : ℚ) (hv : (0 : ℝ) ≤ (v : ℝ)) (k : ℕ) (hk : 0 < k) :
    gtMeanPlusKStd t a v k = true
      ↔ (a : ℝ) + (k : ℝ) * Real.sqrt (v : ℝ) < (t : ℝ) := by
  unfold gtMeanPlusKStd
  rw [Bool.and_eq_true, decide_eq_true_eq, decide_eq_true_eq]
  have hkR : (0 : ℝ) < (k : ℝ) := by exact_mod_cast hk
  constructor
  · rintro ⟨h1, h2⟩
    have h1R : (a : ℝ) < (t : ℝ) := by exact_mod_cast h1
    have h2R : ((k : ℝ)) ^ 2 * (v : ℝ) < ((t : ℝ) - (a : ℝ)) ^ 2 := by
      have := (Rat.cast_lt (K := ℝ)).mpr h2
      push_cast at this
      convert this using 1 <;> push_cast <;> ring
    have := (lt_mul_sqrt_iff ((t : ℝ) - (a : ℝ)) (v : ℝ) hv (k : ℝ) hkR).mpr
      ⟨by linarith, h2R⟩
    linarith
  · intro h
    have h' : (k : ℝ) * Real.sqrt (v : ℝ) < (t : ℝ) - (a : ℝ) := by linarith
    obtain ⟨h1, h2⟩ := (lt_mul_sqrt_iff ((t : ℝ) - (a : ℝ)) (v : ℝ) hv (k : ℝ) hkR).mp h'
    constructor
    · exact_mod_cast sub_pos.mp (by linarith : (0 : ℝ) < ((t : ℝ) - (a : ℝ)))
    · have h2' : ((k : ℝ)) ^ 2 * (v : ℝ) < (((t - a : ℚ)) : ℝ) ^ 2 := by
        push_cast
        convert h2 using 1 <;> push_cast <;> ring
      exact_mod_cast (by push_cast at h2' ⊢; convert h2' using 1 <;> push_cast <;> ring :
        (((k : ℚ) ^ 2 * v : ℚ) : ℝ) < (((t - a) ^ 2 : ℚ) : ℝ))

/-- The ℚ encoding of `latest < mean - σ` agrees with the real square-root
comparison. -/
lemma ltMeanMinusStd_iff (t a v : ℚ) (hv : (0 : ℝ) ≤ (v : ℝ)) :
    ltMeanMinusStd t a v = true
      ↔ (t : ℝ) < (a : ℝ) - Real.sqrt (v : ℝ) := by
  unfold ltMeanMinusStd
  rw [Bool.and_eq_true, decide_eq_true_eq, decide_eq_true_eq]
  constructor
  · rintro ⟨h1, h2⟩
    have h1R : (t : ℝ) < (a : ℝ) := by exact_mod_cast h1
    have h2R : (1 : ℝ) ^ 2 * (v : ℝ) < ((a : ℝ) - (t : ℝ)) ^ 2 := by
      have := (Rat.cast_lt (K := ℝ)).mpr h2
      push_cast at this
      convert this using 1 <;> push_cast <;> ring
    have := (lt_mul_sqrt_iff ((a : ℝ) - (t : ℝ)) (v : ℝ) hv 1 one_pos).mpr
      ⟨by linarith, h2R⟩
    linarith
  · intro h
    have h' : (1 : ℝ) * Real.sqrt (v : ℝ) < (a : ℝ) - (t : ℝ) := by linarith
    obtain ⟨h1, h2⟩ := (lt_mul_sqrt_iff ((a : ℝ) - (t : ℝ)) (v : ℝ) hv 1 one_pos).mp h'
    constructor
    · exact_mod_cast sub_pos.mp (by linarith : (0 : ℝ) < ((a : ℝ) - (t : ℝ)))
    · have h2' : ((v : ℚ) : ℝ) < (((a - t) ^ 2 : ℚ) : ℝ) := by
        push_cast
        nlinarith [h2]
      exact_mod_cast h2'

/-- C6 counterexample.  For volumes `[2,1,3]` the mean is 2 and the sample
variance 1 (so σ = 1): the latest volume 3 is exactly µ+σ, yet the status is
`"normal"`, not the claimed `"high"`.  For `[7,7,10,10,10,10,16]` the mean is
10 and the sample variance 9 (σ = 3): the latest volume 16 is exactly µ+2σ,
yet the status is `"high"`, not the claimed `"extremely_high"`. -/
theorem c6_volume_boundary_counterexample :
    volume_status [2, 1, 3] = ("normal")
    ∧ listMean [2, 1, 3] = 2 ∧ sampleVarL [2, 1, 3] = 1
    ∧ (2 : ℝ) + Real.sqrt 1 = 3
    ∧ volume_status [7, 7, 10, 10, 10, 10, 16] = ("high")
    ∧ listMean [7, 7, 10, 10, 10, 10, 16] = 10
    ∧ sampleVarL [7, 7, 10, 10, 10, 10, 16] = 9
    ∧ (10 : ℝ) + 2 * Real.sqrt 9 = 16 := by
  refine ⟨by with_unfolding_all decide, by with_unfolding_all decide,
    by with_unfolding_all decide, ?_, by with_unfolding_all decide,
    by with_unfolding_all decide, by with_unfolding_all decide, ?_⟩
  · rw [Real.sqrt_one]; norm_num
  · rw [show (9 : ℝ) = 3 ^ 2 by norm_num, Real.sqrt_sq (by norm_num : (0:ℝ) ≤ 3)]
    norm_num

/-- C6 as amended.  The thresholds are strict: with µ the mean and σ the
sample standard deviation of the volumes, the latest volume classifies
`"extremely_high"` iff it exceeds µ+2σ strictly, `"high"` iff it lies in
(µ+σ, µ+2σ], `"low"` iff it is below µ-σ strictly, and `"normal"` iff it
lies in [µ-σ, µ+σ] — so a volume exactly at µ+σ is `"normal"` and one
exactly at µ+2σ is `"high"` (for σ > 0), not `"high"`/`"extremely_high"` as
claimed. -/
theorem c6_volume_status_strict :
    (∀ volumes : List ℚ, 2 ≤ volumes.length →
      ((volume_status volumes = ("extremely_high") ↔
          (listMean volumes : ℝ) + 2 * Real.sqrt (sampleVarL volumes : ℝ)
            < (volumes.getLastD 0 : ℝ))
        ∧ (volume_status volumes = ("high") ↔
          ((listMean volumes : ℝ) + Real.sqrt (sampleVarL volumes : ℝ)
              < (volumes.getLastD 0 : ℝ)
            ∧ (volumes.getLastD 0 : ℝ)
              ≤ (listMean volumes : ℝ) + 2 * Real.sqrt (sampleVarL volumes : ℝ)))
        ∧ (volume_status volumes = ("low") ↔
          (volumes.getLastD 0 : ℝ)
            < (listMean volumes : ℝ) - Real.sqrt (sampleVarL volumes : ℝ))
        ∧ (volume_status volumes = ("normal") ↔
          ((listMean volumes : ℝ) - Real.sqrt (sampleVarL volumes : ℝ)
              ≤ (volumes.getLastD 0 : ℝ)
            ∧ (volumes.getLastD 0 : ℝ)
              ≤ (listMean volumes : ℝ) + Real.sqrt (sampleVarL volumes : ℝ)))))
    ∧ volume_status [1, 1, 1, 1, 1, 1, 1, 1, 1, 11] = ("extremely_high") := by
  constructor
  · intro volumes hlen
    have hv : (0 : ℝ) ≤ (sampleVarL volumes : ℝ) := by
      exact_mod_cast sampleVarL_nonneg volumes hlen
    have hs : (0 : ℝ) ≤ Real.sqrt (sampleVarL volumes : ℝ) := Real.sqrt_nonneg _
    have hE := gtMeanPlusKStd_iff (volumes.getLastD 0) (listMean volumes)
      (sampleVarL volumes) hv 2 (by norm_num)
    have hH := gtMeanPlusKStd_iff (volumes.getLastD 0) (listMean volumes)
      (sampleVarL volumes) hv 1 (by norm_num)
    have hL := ltMeanMinusStd_iff (volumes.getLastD 0) (listMean volumes)
      (sampleVarL volumes) hv
    have hguard : ¬ volumes.length ≤ 1 := by omega
    rw [show ((1 : ℕ) : ℝ) = 1 from by norm_num, one_mul] at hH
    rw [show ((2 : ℕ) : ℝ) = 2 from by norm_num] at hE
    have hform : volume_status volumes
        = (if gtMeanPlusKStd (volumes.getLastD 0) (listMean volumes) (sampleVarL volumes) 2
            then ("extremely_high")
            else if gtMeanPlusKStd (volumes.getLastD 0) (listMean volumes)
                (sampleVarL volumes) 1
            then ("high")
            else if ltMeanMinusStd (volumes.getLastD 0) (listMean volumes)
                (sampleVarL volumes)
            then ("low") else ("normal")) := by
      unfold volume_status
      rw [if_neg hguard]
    rw [hform]
    by_cases hEb : gtMeanPlusKStd (volumes.getLastD 0) (listMean volumes)
        (sampleVarL volumes) 2 = true
    · have hEr := hE.mp hEb
      rw [if_pos hEb]
      refine ⟨iff_of_true rfl hEr, ?_, ?_, ?_⟩
      · constructor
        · intro h; exact absurd h (by decide)
        · rintro ⟨_, h2⟩; linarith
      · constructor
        · intro h; exact absurd h (by decide)
        · intro h2; linarith
      · constructor
        · intro h; exact absurd h (by decide)
        · rintro ⟨_, h2⟩; linarith
    · have hEr := (not_iff_not.mpr hE).mp hEb
      rw [not_lt] at hEr
      rw [if_neg hEb]
      by_cases hHb : gtMeanPlusKStd (volumes.getLastD 0) (listMean volumes)
          (sampleVarL volumes) 1 = true
      · have hHr := hH.mp hHb
        rw [if_pos hHb]
        refine ⟨?_, ?_, ?_, ?_⟩
        · constructor
          · intro h; exact absurd h (by decide)
          · intro h2; linarith
        · exact iff_of_true rfl ⟨hHr, hEr⟩
        · constructor
          · intro h; exact absurd h (by decide)
          · intro h2; linarith
        · constructor
          · intro h; exact absurd h (by decide)
          · rintro ⟨_, h2⟩; linarith
      · have hHr := (not_iff_not.mpr hH).mp hHb
        rw [not_lt] at hHr
        rw [if_neg hHb]
        by_cases hLb : ltMeanMinusStd (volumes.getLastD 0) (listMean volumes)
            (sampleVarL volumes) = true
        · have hLr := hL.mp hLb
          rw [if_pos hLb]
          refine ⟨?_, ?_, iff_of_true rfl hLr, ?_⟩
          · constructor
            · intro h; exact absurd h (by decide)
            · intro h2; linarith
          · constructor
            · intro h; exact absurd h (by decide)
            · rintro ⟨h1, _⟩; linarith
          · constructor
            · intro h; exact absurd h (by decide)
            · rintro ⟨h1, _⟩; linarith
        · have hLr := (not_iff_not.mpr hL).mp hLb
          rw [not_lt] at hLr
          rw [if_neg hLb]
          refine ⟨?_, ?_, ?_, ?_⟩
          · constructor
            · intro h; exact absurd h (by decide)
            · intro h2; linarith
          · constructor
            · intro h; exact absurd h (by decide)
            · rintro ⟨h1, _⟩; linarith
          · constructor
            · intro h; exact absurd h (by decide)
            · intro h2; linarith
          · exact iff_of_true rfl ⟨hLr, hHr⟩
  · with_unfolding_all decide

/-!
## C10 — a Series with fewer than two bars yields no signals at all
-/

/-- C10.  `get_latest_signals` returns the empty dict for every frame with
fewer than two rows; in particular a one-bar frame with `close`, `change`,
`pct_change`, an MA column, K/D/J and an RSI column all defined at its single
bar still yields nothing. -/
theorem c10_one_bar_no_signals :
    (∀ f : Frame, f.nrows < 2 → get_latest_signals f = none)
    ∧ get_latest_signals
        ⟨[(("close"), [.fin 5]), (("change"), [.fin 1]), (("pct_change"), [.fin 2]),
          (("MA5"), [.fin 4]), (("K"), [.fin 50]), (("D"), [.fin 50]), (("J"), [.fin 50]),
          (("RSI6"), [.fin 50])]⟩ = none := by
  constructor
  · intro f h
    unfold get_latest_signals
    rw [if_pos h]
  · with_unfolding_all decide

/-!
## C8 — `find_consecutive_days` returns Python `None`, not an empty dict
-/

/-- C8.  On an empty frame (and on a frame without a `pct_change` column)
`find_consecutive_days` executes the bare `return` of analyzer.py:125 and
produces Python `None` (modelled `none`) — no value at all — where the claim
and the function's own `-> Dict[str, Any]` annotation promise an empty
mapping. -/
theorem c8_streaks_none_on_empty :
    find_consecutive_days ⟨[]⟩ = none
    ∧ find_consecutive_days ⟨[(("close"), [.fin 1, .fin 2])]⟩ = none := by
  constructor <;> with_unfolding_all decide

/-!
## C7 — signal components and the placeholder defaults
-/

lemma isNan_false_iff (v : FVal) : v.isNan = false ↔ v ≠ .nan := by
  cases v <;> simp [isNan]

lemma getD_nan_ne (o : Option FVal) (h : o.getD .nan ≠ .nan) :
    o = some (o.getD .nan) := by
  cases o with
  | none => simp at h
  | some v => rfl

/-- C7 counterexample.  On a two-bar frame having only a `close` column —
so the latest bar's `change`/`pct_change` are undefined — the price
component is still emitted, with `change` and `pct_change` defaulted to the
placeholder number 0 (`latest.get("change", 0)`), refuting "never defaulted
to a placeholder number". -/
theorem c7_placeholder_counterexample :
    get_latest_signals ⟨[(("close"), [.fin 1, .fin 2])]⟩
      = some { price := { current := .fin 2, change := .fin 0, pct_change := .fin 0 }
               ma := [], macd := none, kdj := none, rsi := [] }
    ∧ Frame.getCol ⟨[(("close"), [.fin 1, .fin 2])]⟩ ("change") = none
    ∧ Frame.getCol ⟨[(("close"), [.fin 1, .fin 2])]⟩ ("pct_change") = none := by
  refine ⟨?_, ?_, ?_⟩ <;> with_unfolding_all decide

/-- C7 as amended.  Every MA, MACD, KDJ and RSI signal component is emitted
only when the values it depends on are defined (non-NaN) at the relevant
bars, and carries those exact values; only the price component's
`change`/`pct_change` fields and the MACD `hist` field fall back to the
placeholder 0 when the underlying column is absent. -/
theorem c7_signals_definedness :
    (∀ (f : Frame) (s : Signals), get_latest_signals f = some s →
      (∀ c m, (c, m) ∈ s.ma →
        ∃ col ∈ f.cols, col.1 = c ∧ c.startsWith ("MA") = true
          ∧ col.2.get? (f.nrows - 1) = some m.value ∧ m.value ≠ FVal.nan)
      ∧ (∀ m, s.macd = some m →
          f.cell ("MACD_DIF") (f.nrows - 1) = some m.dif ∧ m.dif ≠ FVal.nan
          ∧ f.cell ("MACD_DEA") (f.nrows - 1) = some m.dea ∧ m.dea ≠ FVal.nan
          ∧ (∃ pd, f.cell ("MACD_DIF") (f.nrows - 1 - 1) = some pd ∧ pd ≠ FVal.nan)
          ∧ (∃ pe, f.cell ("MACD_DEA") (f.nrows - 1 - 1) = some pe ∧ pe ≠ FVal.nan))
      ∧ (∀ m, s.kdj = some m →
          f.cell ("K") (f.nrows - 1) = some m.k ∧ m.k ≠ FVal.nan
          ∧ f.cell ("D") (f.nrows - 1) = some m.d ∧ m.d ≠ FVal.nan
          ∧ f.cell ("J") (f.nrows - 1) = some m.j ∧ m.j ≠ FVal.nan)
      ∧ (∀ c m, (c, m) ∈ s.rsi →
        ∃ col ∈ f.cols, col.1 = c ∧ c.startsWith ("RSI") = true
          ∧ col.2.get? (f.nrows - 1) = some m.value ∧ m.value ≠ FVal.nan))
    ∧ get_latest_signals ⟨[(("close"), [.fin 1, .fin 2]), (("MA5"), [.fin 1, .fin 3])]⟩
        = some { price := { current := .fin 2, change := .fin 0, pct_change := .fin 0 }
                 ma := [(("MA5"), { value := .fin 3, position := ("below") })]
                 macd := none, kdj := none, rsi := [] } := by
  constructor
  · intro f s h
    simp only [get_latest_signals] at h
    by_cases hn : f.nrows < 2
    · rw [if_pos hn] at h
      exact absurd h (by simp)
    · rw [if_neg hn] at h
      rcases hcc : f.cell ("close") (f.nrows - 1) with _ | closeV <;> rw [hcc] at h
      · exact absurd h (by simp)
      · rw [Option.some.injEq] at h
        subst h
        refine ⟨?_, ?_, ?_, ?_⟩
        · intro c m hm
          simp only [List.mem_filterMap] at hm
          obtain ⟨col, hcol, hg⟩ := hm
          split at hg
          · rename_i hsw
            split at hg
            · rename_i v hv
              split at hg
              · exact absurd hg (by simp)
              · rename_i hnan
                rw [Option.some.injEq] at hg
                refine ⟨col, hcol, ?_⟩
                have hc : col.1 = c := congrArg Prod.fst hg
                have hmm : m = ⟨v, if fgt closeV v then ("above") else ("below")⟩ :=
                  (congrArg Prod.snd hg).symm
                subst hc
                refine ⟨rfl, hsw, ?_, ?_⟩
                · rw [hv, hmm]
                · rw [hmm]
                  exact (isNan_false_iff v).mp (Bool.not_eq_true _ ▸ hnan)
            · exact absurd hg (by simp)
          · exact absurd hg (by simp)
        · intro m hm
          by_cases hcols : ((f.getCol ("MACD_DIF")).isSome
              && (f.getCol ("MACD_DEA")).isSome) = true
          · rw [if_pos hcols] at hm
            by_cases hdef : (!((f.cell ("MACD_DIF") (f.nrows - 1)).getD .nan).isNan
                && !((f.cell ("MACD_DEA") (f.nrows - 1)).getD .nan).isNan
                && !((f.cell ("MACD_DIF") (f.nrows - 1 - 1)).getD .nan).isNan
                && !((f.cell ("MACD_DEA") (f.nrows - 1 - 1)).getD .nan).isNan) = true
            · rw [if_pos hdef] at hm
              rw [Option.some.injEq] at hm
              simp only [Bool.and_eq_true, Bool.not_eq_true'] at hdef
              obtain ⟨⟨⟨h1, h2⟩, h3⟩, h4⟩ := hdef
              have h1' := (isNan_false_iff _).mp h1
              have h2' := (isNan_false_iff _).mp h2
              have h3' := (isNan_false_iff _).mp h3
              have h4' := (isNan_false_iff _).mp h4
              have hd := getD_nan_ne _ h1'
              have he := getD_nan_ne _ h2'
              refine ⟨?_, ?_, ?_, ?_, ⟨_, getD_nan_ne _ h3', h3'⟩, ⟨_, getD_nan_ne _ h4', h4'⟩⟩
              · rw [hd, ← hm]
              · rw [← hm]; exact h1'
              · rw [he, ← hm]
              · rw [← hm]; exact h2'
            · rw [if_neg hdef] at hm
              exact absurd hm (by simp)
          · rw [if_neg hcols] at hm
            exact absurd hm (by simp)
        · intro m hm
          by_cases hcols : ((f.getCol ("K")).isSome && (f.getCol ("D")).isSome
              && (f.getCol ("J")).isSome) = true
          · rw [if_pos hcols] at hm
            by_cases hdef : (!((f.cell ("K") (f.nrows - 1)).getD .nan).isNan
                && !((f.cell ("D") (f.nrows - 1)).getD .nan).isNan
                && !((f.cell ("J") (f.nrows - 1)).getD .nan).isNan) = true
            · rw [if_pos hdef] at hm
              rw [Option.some.injEq] at hm
              simp only [Bool.and_eq_true, Bool.not_eq_true'] at hdef
              obtain ⟨⟨h1, h2⟩, h3⟩ := hdef
              have h1' := (isNan_false_iff _).mp h1
              have h2' := (isNan_false_iff _).mp h2
              have h3' := (isNan_false_iff _).mp h3
              refine ⟨?_, ?_, ?_, ?_, ?_, ?_⟩
              · rw [getD_nan_ne _ h1', ← hm]
              · rw [← hm]; exact h1'
              · rw [getD_nan_ne _ h2', ← hm]
              · rw [← hm]; exact h2'
              · rw [getD_nan_ne _ h3', ← hm]
              · rw [← hm]; exact h3'
            · rw [if_neg hdef] at hm
              exact absurd hm (by simp)
          · rw [if_neg hcols] at hm
            exact absurd hm (by simp)
        · intro c m hm
          simp only [List.mem_filterMap] at hm
          obtain ⟨col, hcol, hg⟩ := hm
          split at hg
          · rename_i hsw
            split at hg
            · rename_i v hv
              split at hg
              · exact absurd hg (by simp)
              · rename_i hnan
                rw [Option.some.injEq] at hg
                refine ⟨col, hcol, ?_⟩
                have hc : col.1 = c := congrArg Prod.fst hg
                have hmm : m = ⟨v, fgt v (.fin 70), flt v (.fin 30)⟩ :=
                  (congrArg Prod.snd hg).symm
                subst hc
                refine ⟨rfl, hsw, ?_, ?_⟩
                · rw [hv, hmm]
                · rw [hmm]
                  exact (isNan_false_iff v).mp (Bool.not_eq_true _ ▸ hnan)
            · exact absurd hg (by simp)
          · exact absurd hg (by simp)
  · with_unfolding_all decide

/-!
## C3 — support/resistance candidates, clustering, ordering
-/

lemma foldl_max_ge_init (l : List ℚ) : ∀ a : ℚ, a ≤ l.foldl max a := by
  induction l with
  | nil => intro a; exact le_refl a
  | cons y ys ih => intro a; exact le_trans (le_max_left a y) (ih (max a y))

lemma foldl_max_ge_mem (l : List ℚ) : ∀ (a x : ℚ), x ∈ l → x ≤ l.foldl max a := by
  induction l with
  | nil => intro a x h; cases h
  | cons y ys ih =>
      intro a x h
      rcases List.mem_cons.mp h with rfl | h
      · exact le_trans (le_max_right a x) (foldl_max_ge_init ys (max a x))
      · exact ih (max a y) x h

lemma foldl_max_mem (l : List ℚ) : ∀ a : ℚ, l.foldl max a = a ∨ l.foldl max a ∈ l := by
  induction l with
  | nil => intro a; exact Or.inl rfl
  | cons y ys ih =>
      intro a
      rcases ih (max a y) with h | h
      · rcases max_choice a y with hm | hm
        · exact Or.inl (by rw [List.foldl_cons, h, hm])
        · exact Or.inr (by rw [List.foldl_cons, h, hm]; exact List.mem_cons_self y ys)
      · exact Or.inr (List.mem_cons_of_mem y h)

lemma foldl_min_le_init (l : List ℚ) : ∀ a : ℚ, l.foldl min a ≤ a := by
  induction l with
  | nil => intro a; exact le_refl a
  | cons y ys ih => intro a; exact le_trans (ih (min a y)) (min_le_left a y)

lemma foldl_min_le_mem (l : List ℚ) : ∀ (a x : ℚ), x ∈ l → l.foldl min a ≤ x := by
  induction l with
  | nil => intro a x h; cases h
  | cons y ys ih =>
      intro a x h
      rcases List.mem_cons.mp h with rfl | h
      · exact le_trans (foldl_min_le_init ys (min a x)) (min_le_right a x)
      · exact ih (min a y) x h

lemma foldl_min_mem (l : List ℚ) : ∀ a : ℚ, l.foldl min a = a ∨ l.foldl min a ∈ l := by
  induction l with
  | nil => intro a; exact Or.inl rfl
  | cons y ys ih =>
      intro a
      rcases ih (min a y) with h | h
      · rcases min_choice a y with hm | hm
        · exact Or.inl (by rw [List.foldl_cons, h, hm])
        · exact Or.inr (by rw [List.foldl_cons, h, hm]; exact List.mem_cons_self y ys)
      · exact Or.inr (List.mem_cons_of_mem y h)

/-- Membership in a `drop`/`take` window, in terms of absolute indices. -/
lemma mem_take_drop_iff (l : List ℚ) (a b : ℕ) (x : ℚ) :
    x ∈ (l.drop a).take b
      ↔ ∃ j, a ≤ j ∧ j < a + b ∧ j < l.length ∧ l.getD j 0 = x := by
  constructor
  · intro hx
    obtain ⟨i, hi, hval⟩ := List.mem_iff_getElem.mp hx
    have hlen : i < b ∧ a + i < l.length := by
      have h1 := hi
      simp [List.length_take, List.length_drop] at h1
      omega
    refine ⟨a + i, by omega, by omega, hlen.2, ?_⟩
    rw [List.getD_eq_getElem l 0 hlen.2]
    rw [List.getElem_take, List.getElem_drop] at hval
    exact hval
  · rintro ⟨j, hj1, hj2, hj3, hj4⟩
    have hlen : j - a < ((l.drop a).take b).length := by
      simp [List.length_take, List.length_drop]
      omega
    apply List.mem_iff_getElem.mpr ⟨j - a, hlen, ?_⟩
    rw [List.getElem_take, List.getElem_drop]
    rw [List.getD_eq_getElem l 0 hj3] at hj4
    have : a + (j - a) = j := by omega
    simp_rw [this]
    exact hj4

/-- The window of the local-extremum scan is never empty at a scanned
index. -/
lemma window_ne_nil (l : List ℚ) (i w : ℕ) (hi : i < l.length) :
    (l.drop (i - w)).take (2 * w + 1) ≠ [] := by
  intro h
  have := congrArg List.length h
  simp [List.length_take, List.length_drop] at this
  omega

lemma le_windowMax (l : List ℚ) (x : ℚ) (h : x ∈ l) : x ≤ windowMax l := by
  cases l with
  | nil => cases h
  | cons y t =>
      rcases List.mem_cons.mp h with rfl | h
      · exact foldl_max_ge_init t x
      · exact foldl_max_ge_mem t y x h

lemma windowMax_mem (l : List ℚ) (h : l ≠ []) : windowMax l ∈ l := by
  cases l with
  | nil => exact absurd rfl h
  | cons y t =>
      rcases foldl_max_mem t y with h' | h'
      · rw [windowMax, h']; exact List.mem_cons_self y t
      · exact List.mem_cons_of_mem y h'

lemma windowMin_le (l : List ℚ) (x : ℚ) (h : x ∈ l) : windowMin l ≤ x := by
  cases l with
  | nil => cases h
  | cons y t =>
      rcases List.mem_cons.mp h with rfl | h
      · exact foldl_min_le_init t x
      · exact foldl_min_le_mem t y x h

lemma windowMin_mem (l : List ℚ) (h : l ≠ []) : windowMin l ∈ l := by
  cases l with
  | nil => exact absurd rfl h
  | cons y t =>
      rcases foldl_min_mem t y with h' | h'
      · rw [windowMin, h']; exact List.mem_cons_self y t
      · exact List.mem_cons_of_mem y h'

lemma mem_insertGe (x : ℚ) (l : List ℚ) (b : ℚ) : b ∈ insertGe x l ↔ b = x ∨ b ∈ l := by
  induction l with
  | nil => simp [insertGe]
  | cons y ys ih =>
      unfold insertGe
      by_cases h : y ≤ x
      · rw [if_pos h]
        simp [List.mem_cons]
      · rw [if_neg h]
        simp only [List.mem_cons, ih]
        tauto

lemma insertGe_sorted (x : ℚ) (l : List ℚ) (h : l.Sorted (· ≥ ·)) :
    (insertGe x l).Sorted (· ≥ ·) := by
  induction l with
  | nil => simp [insertGe]
  | cons y ys ih =>
      rw [List.sorted_cons] at h
      unfold insertGe
      by_cases hxy : y ≤ x
      · rw [if_pos hxy]
        rw [List.sorted_cons]
        refine ⟨?_, List.sorted_cons.mpr h⟩
        intro b hb
        rcases List.mem_cons.mp hb with rfl | hb
        · exact hxy
        · exact le_trans (h.1 b hb) hxy
      · rw [if_neg hxy]
        rw [List.sorted_cons]
        refine ⟨?_, ih h.2⟩
        intro b hb
        rcases (mem_insertGe x ys b).mp hb with rfl | hb
        · exact le_of_not_le hxy
        · exact h.1 b hb

lemma sortDesc_sorted (l : List ℚ) : (sortDesc l).Sorted (· ≥ ·) := by
  unfold sortDesc
  induction l with
  | nil => exact List.sorted_nil
  | cons y ys ih => exact insertGe_sorted y _ ih

/-- C3.  Candidate selection, clustering and output order of
`detect_support_resistance`:
(1) a price is a resistance candidate iff it is the high of some interior
bar `i` (`w ≤ i < n-w`) that attains the maximum high over the symmetric
window `[i-w, i+w]`; (2) dually for support candidates and lows;
(3) candidate highs `[100, 101.5, 150]` at 2 % tolerance collapse to the
cluster mean 100.75 with 150 kept separate; (4) both returned lists are
sorted descending by price with at most `num_levels` entries. -/
theorem c3_support_resistance :
    (∀ (highs : List ℚ) (w : ℕ) (x : ℚ),
      x ∈ localMaxCandidates highs w
        ↔ ∃ i, w ≤ i ∧ i + w < highs.length ∧ highs.getD i 0 = x
            ∧ ∀ j, i - w ≤ j → j ≤ i + w → j < highs.length → highs.getD j 0 ≤ x)
    ∧ (∀ (lows : List ℚ) (w : ℕ) (x : ℚ),
      x ∈ localMinCandidates lows w
        ↔ ∃ i, w ≤ i ∧ i + w < lows.length ∧ lows.getD i 0 = x
            ∧ ∀ j, i - w ≤ j → j ≤ i + w → j < lows.length → x ≤ lows.getD j 0)
    ∧ cluster_levels [100, 203 / 2, 150] (2 / 100) = [403 / 4, 150]
    ∧ (∀ (highs lows : List ℚ) (w k : ℕ),
      (detect_support_resistance highs lows w k).resistance.Sorted (· ≥ ·)
      ∧ (detect_support_resistance highs lows w k).resistance.length ≤ k
      ∧ (detect_support_resistance highs lows w k).support.Sorted (· ≥ ·)
      ∧ (detect_support_resistance highs lows w k).support.length ≤ k) := by
  refine ⟨?_, ?_, by with_unfolding_all decide, ?_⟩
  · intro highs w x
    unfold localMaxCandidates
    rw [List.mem_filterMap]
    constructor
    · rintro ⟨i, hir, hg⟩
      rw [List.mem_range'_1] at hir
      have hin : i + w < highs.length := by omega
      have hiw : w ≤ i := hir.1
      have hi : i < highs.length := by omega
      by_cases heq : highs.getD i 0 = windowMax ((highs.drop (i - w)).take (2 * w + 1))
      · rw [if_pos heq, Option.some.injEq] at hg
        refine ⟨i, hiw, hin, hg, ?_⟩
        intro j hj1 hj2 hj3
        have hjm : highs.getD j 0 ∈ (highs.drop (i - w)).take (2 * w + 1) := by
          rw [mem_take_drop_iff]
          exact ⟨j, hj1, by omega, hj3, rfl⟩
        rw [← hg, heq]
        exact le_windowMax _ _ hjm
      · rw [if_neg heq] at hg
        exact absurd hg (by simp)
    · rintro ⟨i, hiw, hin, hx, hbd⟩
      have hi : i < highs.length := by omega
      refine ⟨i, ?_, ?_⟩
      · rw [List.mem_range'_1]
        omega
      · have hself : highs.getD i 0 ∈ (highs.drop (i - w)).take (2 * w + 1) := by
          rw [mem_take_drop_iff]
          exact ⟨i, by omega, by omega, hi, rfl⟩
        have hle : highs.getD i 0 ≤ windowMax ((highs.drop (i - w)).take (2 * w + 1)) :=
          le_windowMax _ _ hself
        have hge : windowMax ((highs.drop (i - w)).take (2 * w + 1)) ≤ highs.getD i 0 := by
          have hmm := windowMax_mem _ (window_ne_nil highs i w hi)
          rw [mem_take_drop_iff] at hmm
          obtain ⟨j, hj1, hj2, hj3, hj4⟩ := hmm
          rw [← hj4, hx]
          exact hbd j hj1 (by omega) hj3
        rw [if_pos (le_antisymm hle hge), hx]
  · intro lows w x
    unfold localMinCandidates
    rw [List.mem_filterMap]
    constructor
    · rintro ⟨i, hir, hg⟩
      rw [List.mem_range'_1] at hir
      have hin : i + w < lows.length := by omega
      have hiw : w ≤ i := hir.1
      have hi : i < lows.length := by omega
      by_cases heq : lows.getD i 0 = windowMin ((lows.drop (i - w)).take (2 * w + 1))
      · rw [if_pos heq, Option.some.injEq] at hg
        refine ⟨i, hiw, hin, hg, ?_⟩
        intro j hj1 hj2 hj3
        have hjm : lows.getD j 0 ∈ (lows.drop (i - w)).take (2 * w + 1) := by
          rw [mem_take_drop_iff]
          exact ⟨j, hj1, by omega, hj3, rfl⟩
        rw [← hg, heq]
        exact windowMin_le _ _ hjm
      · rw [if_neg heq] at hg
        exact absurd hg (by simp)
    · rintro ⟨i, hiw, hin, hx, hbd⟩
      have hi : i < lows.length := by omega
      refine ⟨i, ?_, ?_⟩
      · rw [List.mem_range'_1]
        omega
      · have hself : lows.getD i 0 ∈ (lows.drop (i - w)).take (2 * w + 1) := by
          rw [mem_take_drop_iff]
          exact ⟨i, by omega, by omega, hi, rfl⟩
        have hge : windowMin ((lows.drop (i - w)).take (2 * w + 1)) ≤ lows.getD i 0 :=
          windowMin_le _ _ hself
        have hle : lows.getD i 0 ≤ windowMin ((lows.drop (i - w)).take (2 * w + 1)) := by
          have hmm := windowMin_mem _ (window_ne_nil lows i w hi)
          rw [mem_take_drop_iff] at hmm
          obtain ⟨j, hj1, hj2, hj3, hj4⟩ := hmm
          rw [← hj4, hx]
          exact hbd j hj1 (by omega) hj3
        rw [if_pos (le_antisymm hle hge), hx]
  · intro highs lows w k
    have hsorted : ∀ l : List ℚ, (sortDesc l).Sorted (· ≥ ·) := sortDesc_sorted
    have hs1 := fun l : List ℚ =>
      List.Pairwise.sublist (List.take_sublist k (sortDesc l)) (hsorted l)
    unfold detect_support_resistance
    by_cases hg : highs.length < w
    · rw [if_pos hg]
      exact ⟨List.sorted_nil, by simp, List.sorted_nil, by simp⟩
    · rw [if_neg hg]
      exact ⟨hs1 _, List.length_take_le k _, hs1 _, List.length_take_le k _⟩

/-!
## C9 — indicator operations preserve the Series frame
-/

/-- The column names of a Series per the data model (Bar fields). -/
def baseColumnNames : List String :=
  [("date"), ("open"), ("high"), ("low"), ("close"), ("volume"), ("amount"),
    ("change"), ("pct_change")]

lemma base_ne_ma (c : String) (hc : c ∈ baseColumnNames) (s : String) :
    c ≠ ("MA") ++ s := by
  fin_cases hc <;> exact ne_of_data_head _ _ _ _ _ _ _ rfl rfl (by decide)

lemma base_ne_ema (c : String) (hc : c ∈ baseColumnNames) (s : String) :
    c ≠ ("EMA") ++ s := by
  fin_cases hc <;> exact ne_of_data_head _ _ _ _ _ _ _ rfl rfl (by decide)

lemma base_ne_rsi (c : String) (hc : c ∈ baseColumnNames) (s : String) :
    c ≠ ("RSI") ++ s := by
  fin_cases hc <;> exact ne_of_data_head _ _ _ _ _ _ _ rfl rfl (by decide)

lemma base_ne_volma (c : String) (hc : c ∈ baseColumnNames) (s : String) :
    c ≠ ("VOL_MA") ++ s := by
  fin_cases hc <;> exact ne_of_data_head _ _ _ _ _ _ _ rfl rfl (by decide)

lemma base_ne_fixed (c : String) (hc : c ∈ baseColumnNames) :
    c ≠ ("BOLL_MID") ∧ c ≠ ("BOLL_UPPER") ∧ c ≠ ("BOLL_LOWER") ∧ c ≠ ("K")
      ∧ c ≠ ("D") ∧ c ≠ ("J") ∧ c ≠ ("MACD_DIF") ∧ c ≠ ("MACD_DEA")
      ∧ c ≠ ("MACD_HIST") ∧ c ≠ ("OBV") := by
  fin_cases hc <;> exact (by decide)

lemma rollingApply_length (agg : List FVal → FVal) (xs : List FVal) (p : ℕ) :
    (rollingApply agg xs p).length = xs.length := by
  simp [rollingApply]

lemma ewmGo_length (a : ℚ) (l : List FVal) :
    ∀ num den : ℚ, (ewmGo a num den l).length = l.length := by
  induction l with
  | nil => intro num den; rfl
  | cons x xs ih =>
      intro num den
      cases x with
      | fin q =>
          unfold ewmGo
          by_cases hd : den = 0
          · rw [if_pos hd]; simp [ih]
          · rw [if_neg hd]; simp [ih]
      | pinf => unfold ewmGo; simp [ih]
      | ninf => unfold ewmGo; simp [ih]
      | nan => unfold ewmGo; simp [ih]

lemma ewmW_length (a : ℚ) (l : List FVal) : (ewmW a l).length = l.length :=
  ewmGo_length a l 0 0

lemma obvGo_length (l : List (FVal × FVal)) : ∀ prev, (obvGo prev l).length = l.length := by
  induction l with
  | nil => intro prev; rfl
  | cons x xs ih => intro prev; simp [obvGo, ih]

lemma obvList_length (pcs vols : List FVal) (h : pcs.length = vols.length) :
    (obvList pcs vols).length = vols.length := by
  cases vols with
  | nil =>
      cases pcs with
      | nil => rfl
      | cons p ps => simp at h
  | cons v vs =>
      cases pcs with
      | nil => simp at h
      | cons p ps =>
          simp only [obvList, obvGo_length, List.length_cons]
          simp at h
          simp [List.length_zip, h]

lemma getCol_length (f : Frame) (name : String) (cs : List FVal) (hwf : f.WF)
    (h : f.getCol name = some cs) : cs.length = f.nrows := by
  unfold Frame.getCol at h
  cases hf : f.cols.find? (fun c => c.1 == name) with
  | none => rw [hf] at h; simp at h
  | some p =>
      rw [hf] at h
      simp only [Option.map_some'] at h
      rw [Option.some.injEq] at h
      rw [← h]
      exact hwf p (List.mem_of_find?_eq_some hf)

lemma find?_setColGo_ne (L : List (String × List FVal)) (name : String)
    (col : List FVal) (c : String) (h : c ≠ name) :
    (setColGo name col L).find? (fun p => p.1 == c)
      = L.find? (fun p => p.1 == c) := by
  induction L with
  | nil =>
      simp only [setColGo, List.find?]
      rw [show ((name == c) = false) from beq_eq_false_iff_ne.mpr (Ne.symm h)]
  | cons p ps ih =>
      unfold setColGo
      by_cases hp : p.1 = name
      · rw [if_pos hp]
        rw [List.find?_cons, List.find?_cons]
        rw [show ((name == c) = false) from beq_eq_false_iff_ne.mpr (Ne.symm h)]
        rw [show ((p.1 == c) = false) from beq_eq_false_iff_ne.mpr (by rw [hp]; exact Ne.symm h)]
      · rw [if_neg hp]
        rw [List.find?_cons, List.find?_cons]
        cases hpc : (p.1 == c) with
        | true => rfl
        | false => exact ih

lemma getCol_setCol_ne (f : Frame) (name : String) (col : List FVal) (c : String)
    (h : c ≠ name) : (f.setCol name col).getCol c = f.getCol c := by
  unfold Frame.setCol Frame.getCol
  rw [find?_setColGo_ne f.cols name col c h]

lemma mem_setColGo (L : List (String × List FVal)) (name : String) (col : List FVal)
    (p : String × List FVal) (h : p ∈ setColGo name col L) :
    p = (name, col) ∨ p ∈ L := by
  induction L with
  | nil => simpa [setColGo] using h
  | cons q qs ih =>
      unfold setColGo at h
      by_cases hq : q.1 = name
      · rw [if_pos hq] at h
        rcases List.mem_cons.mp h with h' | h'
        · exact Or.inl h'
        · exact Or.inr (List.mem_cons_of_mem q h')
      · rw [if_neg hq] at h
        rcases List.mem_cons.mp h with h' | h'
        · exact Or.inr (h' ▸ List.mem_cons_self q qs)
        · rcases ih h' with h'' | h''
          · exact Or.inl h''
          · exact Or.inr (List.mem_cons_of_mem q h'')

lemma nrows_setCol (f : Frame) (name : String) (col : List FVal)
    (h : col.length = f.nrows) : (f.setCol name col).nrows = f.nrows := by
  have hn : f.nrows = match f.cols with | [] => 0 | c :: _ => c.2.length := rfl
  unfold Frame.setCol Frame.nrows
  cases hc : f.cols with
  | nil =>
      simp only [setColGo]
      rw [h, hn, hc]
  | cons p ps =>
      unfold setColGo
      by_cases hp : p.1 = name
      · rw [if_pos hp]
        simp only []
        rw [h]
        unfold Frame.nrows
        rw [hc]
      · rw [if_neg hp]

lemma WF_setCol (f : Frame) (name : String) (col : List FVal) (hwf : f.WF)
    (h : col.length = f.nrows) : (f.setCol name col).WF := by
  intro p hp
  rw [nrows_setCol f name col h]
  rcases mem_setColGo f.cols name col p hp with rfl | hmem
  · exact h
  · exact hwf p hmem

lemma foldl_cols_preserve (f0 : Frame) (c : String) (step : Frame → ℕ → Frame) :
    ∀ periods : List ℕ,
      (∀ (a : Frame) (p : ℕ), p ∈ periods → a.WF → a.nrows = f0.nrows →
        (step a p).WF ∧ (step a p).nrows = f0.nrows
          ∧ (step a p).getCol c = a.getCol c) →
      ∀ acc : Frame, acc.WF → acc.nrows = f0.nrows → acc.getCol c = f0.getCol c →
        (periods.foldl step acc).WF ∧ (periods.foldl step acc).nrows = f0.nrows
          ∧ (periods.foldl step acc).getCol c = f0.getCol c := by
  intro periods
  induction periods with
  | nil => intro _ acc h1 h2 h3; exact ⟨h1, h2, h3⟩
  | cons p ps ih =>
      intro hstep acc h1 h2 h3
      have hs := hstep acc p (List.mem_cons_self _ _) h1 h2
      exact ih (fun a q hq ha hn => hstep a q (List.mem_cons_of_mem _ hq) ha hn)
        (step acc p) hs.1 hs.2.1 (hs.2.2.trans h3)

/-- The frame-effect contract of C9 for one operation: the result is
well-formed with the source's row count, and the column `c` reads exactly as
in the source. -/
def preservesFrame (f r : Frame) (c : String) : Prop :=
  r.WF ∧ r.nrows = f.nrows ∧ r.getCol c = f.getCol c

lemma rsiCol_length (cs : List FVal) (p : ℕ) : (rsiCol cs p).length = cs.length := by
  simp [rsiCol, avgGainF, avgLossF, rollingMeanF, rollingApply_length, List.length_zip,
    rsiGain, rsiLoss, diffF_length]

lemma calculate_ma_preserve (f : Frame) (periods : List ℕ) (c : String) (hwf : f.WF)
    (hc : ∀ p : ℕ, c ≠ ("MA") ++ Nat.repr p) :
    preservesFrame f (calculate_ma f periods) c := by
  unfold calculate_ma
  cases hcl : f.getCol ("close") with
  | none => exact ⟨hwf, rfl, rfl⟩
  | some cs =>
      have hcs := getCol_length f _ cs hwf hcl
      refine foldl_cols_preserve f c _ periods ?_ f hwf rfl rfl
      intro a p _ ha hn
      by_cases hcond : p ≤ f.nrows
      · rw [if_pos hcond]
        have hl : (rollingMeanF cs p).length = a.nrows := by
          unfold rollingMeanF
          rw [rollingApply_length, hcs, hn]
        exact ⟨WF_setCol a _ _ ha hl, (nrows_setCol a _ _ hl).trans hn,
          getCol_setCol_ne a _ _ c (hc p)⟩
      · rw [if_neg hcond]
        exact ⟨ha, hn, rfl⟩

lemma calculate_ema_preserve (f : Frame) (periods : List ℕ) (c : String) (hwf : f.WF)
    (hc : ∀ p : ℕ, c ≠ ("EMA") ++ Nat.repr p) :
    preservesFrame f (calculate_ema f periods) c := by
  unfold calculate_ema
  cases hcl : f.getCol ("close") with
  | none => exact ⟨hwf, rfl, rfl⟩
  | some cs =>
      have hcs := getCol_length f _ cs hwf hcl
      refine foldl_cols_preserve f c _ periods ?_ f hwf rfl rfl
      intro a p _ ha hn
      by_cases hcond : p ≤ f.nrows
      · rw [if_pos hcond]
        have hl : (ewmW (2 / ((p : ℚ) + 1)) cs).length = a.nrows := by
          rw [ewmW_length, hcs, hn]
        exact ⟨WF_setCol a _ _ ha hl, (nrows_setCol a _ _ hl).trans hn,
          getCol_setCol_ne a _ _ c (hc p)⟩
      · rw [if_neg hcond]
        exact ⟨ha, hn, rfl⟩

lemma calculate_rsi_preserve (f : Frame) (periods : List ℕ) (c : String) (hwf : f.WF)
    (hc : ∀ p : ℕ, c ≠ ("RSI") ++ Nat.repr p) :
    preservesFrame f (calculate_rsi f periods) c := by
  unfold calculate_rsi
  cases hcl : f.getCol ("close") with
  | none => exact ⟨hwf, rfl, rfl⟩
  | some cs =>
      have hcs := getCol_length f _ cs hwf hcl
      refine foldl_cols_preserve f c _ periods ?_ f hwf rfl rfl
      intro a p _ ha hn
      by_cases hcond : p + 1 ≤ f.nrows
      · rw [if_pos hcond]
        have hl : (rsiCol cs p).length = a.nrows := by
          rw [rsiCol_length, hcs, hn]
        exact ⟨WF_setCol a _ _ ha hl, (nrows_setCol a _ _ hl).trans hn,
          getCol_setCol_ne a _ _ c (hc p)⟩
      · rw [if_neg hcond]
        exact ⟨ha, hn, rfl⟩

lemma calculate_volume_ma_preserve (f : Frame) (periods : List ℕ) (c : String)
    (hwf : f.WF) (hc : ∀ p : ℕ, c ≠ ("VOL_MA") ++ Nat.repr p) :
    preservesFrame f (calculate_volume_ma f periods) c := by
  unfold calculate_volume_ma
  cases hcl : f.getCol ("volume") with
  | none => exact ⟨hwf, rfl, rfl⟩
  | some vs =>
      have hcs := getCol_length f _ vs hwf hcl
      refine foldl_cols_preserve f c _ periods ?_ f hwf rfl rfl
      intro a p _ ha hn
      by_cases hcond : p ≤ f.nrows
      · rw [if_pos hcond]
        have hl : (rollingMeanF vs p).length = a.nrows := by
          unfold rollingMeanF
          rw [rollingApply_length, hcs, hn]
        exact ⟨WF_setCol a _ _ ha hl, (nrows_setCol a _ _ hl).trans hn,
          getCol_setCol_ne a _ _ c (hc p)⟩
      · rw [if_neg hcond]
        exact ⟨ha, hn, rfl⟩

lemma setCol3_preserve (f : Frame) (n1 n2 n3 : String) (c1 c2 c3 : List FVal)
    (c : String) (hwf : f.WF) (l1 : c1.length = f.nrows) (l2 : c2.length = f.nrows)
    (l3 : c3.length = f.nrows) (h1 : c ≠ n1) (h2 : c ≠ n2) (h3 : c ≠ n3) :
    preservesFrame f (((f.setCol n1 c1).setCol n2 c2).setCol n3 c3) c := by
  have s1w := WF_setCol f n1 c1 hwf l1
  have s1n := nrows_setCol f n1 c1 l1
  have s2w := WF_setCol _ n2 c2 s1w (by rw [s1n]; exact l2)
  have s2n := nrows_setCol (f.setCol n1 c1) n2 c2 (by rw [s1n]; exact l2)
  refine ⟨WF_setCol _ n3 c3 s2w (by rw [s2n, s1n]; exact l3),
    (nrows_setCol _ n3 c3 (by rw [s2n, s1n]; exact l3)).trans (s2n.trans s1n), ?_⟩
  rw [getCol_setCol_ne _ _ _ c h3, getCol_setCol_ne _ _ _ c h2,
    getCol_setCol_ne _ _ _ c h1]

lemma calculate_boll_preserve (sqrtQ : ℚ → ℚ) (f : Frame) (period : ℕ) (k : ℚ)
    (c : String) (hwf : f.WF) (h1 : c ≠ ("BOLL_MID")) (h2 : c ≠ ("BOLL_UPPER"))
    (h3 : c ≠ ("BOLL_LOWER")) :
    preservesFrame f (calculate_boll sqrtQ f period k) c := by
  unfold calculate_boll
  by_cases hcond : period ≤ f.nrows
  · rw [if_pos hcond]
    cases hcl : f.getCol ("close") with
    | none => exact ⟨hwf, rfl, rfl⟩
    | some cs =>
        have hcs := getCol_length f _ cs hwf hcl
        refine setCol3_preserve f _ _ _ _ _ _ c hwf ?_ ?_ ?_ h1 h2 h3
        · unfold rollingMeanF
          rw [rollingApply_length, hcs]
        · simp [List.length_zip, rollingMeanF, rollingStdF, rollingApply_length, hcs]
        · simp [List.length_zip, rollingMeanF, rollingStdF, rollingApply_length, hcs]
  · rw [if_neg hcond]
    exact ⟨hwf, rfl, rfl⟩

lemma calculate_kdj_preserve (f : Frame) (fastk slowk slowd : ℕ) (c : String)
    (hwf : f.WF) (h1 : c ≠ ("K")) (h2 : c ≠ ("D")) (h3 : c ≠ ("J")) :
    preservesFrame f (calculate_kdj f fastk slowk slowd) c := by
  unfold calculate_kdj
  by_cases hcond : fastk ≤ f.nrows
  · rw [if_pos hcond]
    cases hcl : f.getCol ("close") with
    | none => exact ⟨hwf, rfl, rfl⟩
    | some cs =>
        cases hll : f.getCol ("low") with
        | none => exact ⟨hwf, rfl, rfl⟩
        | some lows =>
            cases hhh : f.getCol ("high") with
            | none => exact ⟨hwf, rfl, rfl⟩
            | some highs =>
                have hcs := getCol_length f _ cs hwf hcl
                have hls := getCol_length f _ lows hwf hll
                have hhs := getCol_length f _ highs hwf hhh
                refine setCol3_preserve f _ _ _ _ _ _ c hwf ?_ ?_ ?_ h1 h2 h3
                · simp [ewmW_length, List.length_zip, rollingMinF, rollingMaxF,
                    rollingApply_length, hcs, hls, hhs]
                · simp [ewmW_length, List.length_zip, rollingMinF, rollingMaxF,
                    rollingApply_length, hcs, hls, hhs]
                · simp [ewmW_length, List.length_zip, rollingMinF, rollingMaxF,
                    rollingApply_length, hcs, hls, hhs]
  · rw [if_neg hcond]
    exact ⟨hwf, rfl, rfl⟩

lemma calculate_macd_preserve (f : Frame) (fast slow signal : ℕ) (c : String)
    (hwf : f.WF) (h1 : c ≠ ("MACD_DIF")) (h2 : c ≠ ("MACD_DEA"))
    (h3 : c ≠ ("MACD_HIST")) :
    preservesFrame f (calculate_macd f fast slow signal) c := by
  unfold calculate_macd
  by_cases hcond : slow ≤ f.nrows
  · rw [if_pos hcond]
    cases hcl : f.getCol ("close") with
    | none => exact ⟨hwf, rfl, rfl⟩
    | some cs =>
        have hcs := getCol_length f _ cs hwf hcl
        refine setCol3_preserve f _ _ _ _ _ _ c hwf ?_ ?_ ?_ h1 h2 h3
        · simp [List.length_zip, ewmW_length, hcs]
        · simp [List.length_zip, ewmW_length, hcs]
        · simp [List.length_zip, ewmW_length, hcs]
  · rw [if_neg hcond]
    exact ⟨hwf, rfl, rfl⟩

lemma calculate_obv_preserve (f : Frame) (c : String) (hwf : f.WF)
    (h1 : c ≠ ("OBV")) : preservesFrame f (calculate_obv f) c := by
  unfold calculate_obv
  by_cases hcond : 1 < f.nrows
  · rw [if_pos hcond]
    cases hcl : f.getCol ("close") with
    | none => exact ⟨hwf, rfl, rfl⟩
    | some cs =>
        cases hvl : f.getCol ("volume") with
        | none => exact ⟨hwf, rfl, rfl⟩
        | some vs =>
            have hcs := getCol_length f _ cs hwf hcl
            have hvs := getCol_length f _ vs hwf hvl
            have hl : (obvList (diffF cs) vs).length = f.nrows := by
              rw [obvList_length _ _ (by rw [diffF_length, hcs, hvs]), hvs]
            exact ⟨WF_setCol f _ _ hwf hl, nrows_setCol f _ _ hl,
              getCol_setCol_ne f _ _ c h1⟩
  · rw [if_neg hcond]
    exact ⟨hwf, rfl, rfl⟩

/-- C9.  Every Indicator Engine operation — for arbitrary parameters, and
their composition `calculate_all_indicators` — returns a frame with exactly
the source's row count (no bar is dropped, added or reordered, and every
derived column is index-aligned with the source), in which every Series
column (Bar field) reads back unchanged; the input frame itself is a value
and is never mutated.  The concrete instance checks the composite on a
two-bar close/volume frame. -/
theorem c9_indicators_preserve_series :
    (∀ (sqrtQ : ℚ → ℚ) (f : Frame) (c : String), f.WF → c ∈ baseColumnNames →
      (∀ periods : List ℕ, preservesFrame f (calculate_ma f periods) c)
      ∧ (∀ periods : List ℕ, preservesFrame f (calculate_ema f periods) c)
      ∧ (∀ (period : ℕ) (k : ℚ), preservesFrame f (calculate_boll sqrtQ f period k) c)
      ∧ (∀ periods : List ℕ, preservesFrame f (calculate_rsi f periods) c)
      ∧ (∀ fastk slowk slowd : ℕ, preservesFrame f (calculate_kdj f fastk slowk slowd) c)
      ∧ (∀ fast slow signal : ℕ, preservesFrame f (calculate_macd f fast slow signal) c)
      ∧ (∀ periods : List ℕ, preservesFrame f (calculate_volume_ma f periods) c)
      ∧ preservesFrame f (calculate_obv f) c
      ∧ preservesFrame f (calculate_all_indicators sqrtQ f) c)
    ∧ (calculate_all_indicators (fun q => q)
        ⟨[(("close"), [.fin 1, .fin 2]), (("volume"), [.fin 3, .fin 4])]⟩).getCol
          (("close")) = some [.fin 1, .fin 2]
    ∧ (calculate_all_indicators (fun q => q)
        ⟨[(("close"), [.fin 1, .fin 2]), (("volume"), [.fin 3, .fin 4])]⟩).nrows = 2 := by
  refine ⟨?_, by with_unfolding_all decide, by with_unfolding_all decide⟩
  intro sqrtQ f c hwf hc
  obtain ⟨b1, b2, b3, b4, b5, b6, b7, b8, b9, b10⟩ := base_ne_fixed c hc
  have hma := fun p : ℕ => base_ne_ma c hc (Nat.repr p)
  have hema := fun p : ℕ => base_ne_ema c hc (Nat.repr p)
  have hrsi := fun p : ℕ => base_ne_rsi c hc (Nat.repr p)
  have hvma := fun p : ℕ => base_ne_volma c hc (Nat.repr p)
  refine ⟨fun periods => calculate_ma_preserve f periods c hwf hma,
    fun periods => calculate_ema_preserve f periods c hwf hema,
    fun period k => calculate_boll_preserve sqrtQ f period k c hwf b1 b2 b3,
    fun periods => calculate_rsi_preserve f periods c hwf hrsi,
    fun a b d => calculate_kdj_preserve f a b d c hwf b4 b5 b6,
    fun a b d => calculate_macd_preserve f a b d c hwf b7 b8 b9,
    fun periods => calculate_volume_ma_preserve f periods c hwf hvma,
    calculate_obv_preserve f c hwf b10, ?_⟩
  unfold calculate_all_indicators
  have s1 := calculate_ma_preserve f [5, 10, 20, 30, 60, 120, 250] c hwf hma
  have s2 := calculate_ema_preserve _ [12, 26] c s1.1 hema
  have s3 := calculate_boll_preserve sqrtQ _ 20 2 c s2.1 b1 b2 b3
  have s4 := calculate_rsi_preserve _ [6, 12, 24] c s3.1 hrsi
  have s5 := calculate_kdj_preserve _ 9 3 3 c s4.1 b4 b5 b6
  have s6 := calculate_macd_preserve _ 12 26 9 c s5.1 b7 b8 b9
  have s7 := calculate_volume_ma_preserve _ [5, 10, 20] c s6.1 hvma
  have s8 := calculate_obv_preserve _ c s7.1 b10
  refine ⟨s8.1, ?_, ?_⟩
  · rw [s8.2.1, s7.2.1, s6.2.1, s5.2.1, s4.2.1, s3.2.1, s2.2.1, s1.2.1]
  · rw [s8.2.2, s7.2.2, s6.2.2, s5.2.2, s4.2.2, s3.2.2, s2.2.2, s1.2.2]

end AStock
